import Mathlib

/-!
Verification of the `rss_parser_rust` ingestion engine
(`src/backend/rss_parser_rust/src/*.rs`) against its natural-language
specification.

The Rust code is shallowly embedded: pure functions become Lean functions
over `List`/`String`/`Option`, the regex-based text cleaner becomes explicit
character-list scanners with the same leftmost-match semantics, the feed
decoder (`feed_rs::parser::parse`, an external crate) is a function
parameter, network behaviour is an oracle parameter, and the Tokio
semaphore of the fetch phase becomes a labelled transition system.
-/

namespace RssParser

/-! ### Text cleaner (`cleaner.rs`)

`clean_html` in `cleaner.rs` runs, in order:
  1. `html_escape::decode_html_entities` (external crate; modelled below for
     the common named entities, each of the form `&name;` — one pass, no
     re-decoding of the output),
  2. `HTML_TAG_RE = <[^>]+>` replaced by a single space (leftmost,
     non-overlapping matches, exactly as `Regex::replace_all`),
  3. `NBSP_RE = [   ]` replaced by a space,
  4. `WHITESPACE_RE = \s+` (Unicode white space) collapsed to one space,
  5. `str::trim`.
All steps work on character lists; `clean_html` wraps them for `String`.
-/

/-- Unicode `White_Space` characters: the set matched by the Rust regex
class `\s` and trimmed by `str::trim`. -/
def isWs (c : Char) : Bool :=
  c.toNat = 0x09 || c.toNat = 0x0A || c.toNat = 0x0B || c.toNat = 0x0C ||
  c.toNat = 0x0D || c.toNat = 0x20 || c.toNat = 0x85 || c.toNat = 0xA0 ||
  c.toNat = 0x1680 || (0x2000 ≤ c.toNat && c.toNat ≤ 0x200A) ||
  c.toNat = 0x2028 || c.toNat = 0x2029 || c.toNat = 0x202F ||
  c.toNat = 0x205F || c.toNat = 0x3000

/-- The characters of `NBSP_RE`: no-break space, thin space, narrow
no-break space. -/
def isNbsp (c : Char) : Bool :=
  c.toNat = 0xA0 || c.toNat = 0x2009 || c.toNat = 0x202F

/-- Named entities understood by the model of
`html_escape::decode_html_entities` (a representative subset of the
crate's full HTML5 table; every entry is decoded in a single pass). -/
def entityTable : List (List Char × Char) :=
  [("amp".data, '&'), ("lt".data, '<'), ("gt".data, '>'),
   ("quot".data, '"'), ("apos".data, '\''), ("nbsp".data, Char.ofNat 0xA0)]

theorem length_dropWhile_le (p : Char → Bool) (l : List Char) :
    (l.dropWhile p).length ≤ l.length := by
  induction l with
  | nil => simp
  | cons c cs ih =>
    by_cases h : p c
    · simp only [List.dropWhile_cons, h, if_true]
      exact Nat.le_succ_of_le ih
    · simp [List.dropWhile_cons, h]

/-- Try to read `name` followed by `';'` at the head of `cs`, returning
the remainder. -/
def matchEntity : List Char → List Char → Option (List Char)
  | [], ';' :: rest => some rest
  | n :: ns, c :: rest => if c = n then matchEntity ns rest else none
  | _, _ => none

/-- Try every table entry at the head of `cs`. -/
def findEntity : List (List Char × Char) → List Char → Option (Char × List Char)
  | [], _ => none
  | (name, ch) :: tbl, cs =>
    match matchEntity name cs with
    | some rest => some (ch, rest)
    | none => findEntity tbl cs

theorem matchEntity_length {n cs rest} (h : matchEntity n cs = some rest) :
    rest.length < cs.length := by
  induction n generalizing cs with
  | nil =>
    cases cs with
    | nil => simp [matchEntity] at h
    | cons c rest' =>
      by_cases hc : c = ';'
      · subst hc; simp [matchEntity] at h; simp [← h]
      · cases c <;> simp_all [matchEntity]
  | cons n ns ih =>
    cases cs with
    | nil => simp [matchEntity] at h
    | cons c rest' =>
      simp only [matchEntity] at h
      split at h
      · have := ih h
        simp only [List.length_cons]
        omega
      · exact absurd h (by simp)

theorem findEntity_length {tbl cs ch rest}
    (h : findEntity tbl cs = some (ch, rest)) : rest.length < cs.length := by
  induction tbl with
  | nil => simp [findEntity] at h
  | cons p tbl ih =>
    obtain ⟨name, c⟩ := p
    simp only [findEntity] at h
    split at h
    · rename_i heq
      cases h
      exact matchEntity_length heq
    · exact ih h

/-- Worker for `decodeEntities`; the fuel argument only serves structural
recursion and is irrelevant once it bounds the list length. -/
def decodeEntitiesGo : Nat → List Char → List Char
  | 0, _ => []
  | _, [] => []
  | fuel + 1, c :: cs =>
    if c = '&' then
      match findEntity entityTable cs with
      | some (ch, rest) => ch :: decodeEntitiesGo fuel rest
      | none => c :: decodeEntitiesGo fuel cs
    else c :: decodeEntitiesGo fuel cs

/-- Model of `html_escape::decode_html_entities`: single left-to-right
pass, rewriting each recognised `&name;` to its character. -/
def decodeEntities (l : List Char) : List Char :=
  decodeEntitiesGo l.length l

theorem decodeEntitiesGo_nil (fuel : Nat) : decodeEntitiesGo fuel [] = [] := by
  cases fuel <;> rfl

theorem decodeEntitiesGo_fuel {fuel fuel' : Nat} {l : List Char}
    (h : l.length ≤ fuel) (h' : l.length ≤ fuel') :
    decodeEntitiesGo fuel l = decodeEntitiesGo fuel' l := by
  induction fuel generalizing fuel' l with
  | zero =>
    have : l = [] := List.eq_nil_of_length_eq_zero (Nat.le_zero.mp h)
    subst this
    rw [decodeEntitiesGo_nil, decodeEntitiesGo_nil]
  | succ fuel ih =>
    cases l with
    | nil => rw [decodeEntitiesGo_nil, decodeEntitiesGo_nil]
    | cons c cs =>
      cases fuel' with
      | zero => simp at h'
      | succ fuel' =>
        simp only [List.length_cons, Nat.succ_le_succ_iff] at h h'
        simp only [decodeEntitiesGo]
        split
        · split
          · rename_i heq
            have hr := findEntity_length heq
            rw [ih (Nat.le_of_lt (Nat.lt_of_lt_of_le hr h))
                  (Nat.le_of_lt (Nat.lt_of_lt_of_le hr h'))]
          · rw [ih h h']
        · rw [ih h h']

theorem decodeEntities_cons (c : Char) (cs : List Char) :
    decodeEntities (c :: cs) =
      (if c = '&' then
        match findEntity entityTable cs with
        | some (ch, rest) => ch :: decodeEntities rest
        | none => c :: decodeEntities cs
      else c :: decodeEntities cs) := by
  show decodeEntitiesGo (cs.length + 1) (c :: cs) = _
  simp only [decodeEntitiesGo, decodeEntities]
  split
  · split
    · rename_i heq
      have hr := findEntity_length heq
      rw [decodeEntitiesGo_fuel (Nat.le_of_lt hr) (Nat.le_refl _)]
    · rfl
  · rfl

/-- The character class `[^>]` of the tag regex. -/
def neGt (ch : Char) : Bool := ch ≠ '>'

theorem neGt_eq_false {c : Char} : neGt c = false ↔ c = '>' := by simp [neGt]

theorem neGt_eq_true {c : Char} : neGt c = true ↔ c ≠ '>' := by simp [neGt]

/-- The tail skipped by a match of the tag regex `<[^>]+>` starting just
after a `'<'`: `some post` iff `cs = pre ++ '>' :: post` with `pre`
nonempty and `'>'`-free. -/
def afterTag (cs : List Char) : Option (List Char) :=
  match cs.dropWhile neGt with
  | [] => none
  | _ :: post =>
    if (cs.takeWhile neGt).isEmpty then none else some post

theorem afterTag_length {cs post} (h : afterTag cs = some post) :
    post.length < cs.length := by
  unfold afterTag at h
  split at h
  · exact absurd h (by simp)
  · rename_i g post' heq
    split at h
    · exact absurd h (by simp)
    · cases h
      have h1 : (g :: post).length ≤ cs.length := by
        rw [← heq]; exact length_dropWhile_le _ cs
      simp only [List.length_cons] at h1
      omega

/-- Worker for `stripTags`; fuel is irrelevant once it bounds the list
length. -/
def stripTagsGo : Nat → List Char → List Char
  | 0, _ => []
  | _, [] => []
  | fuel + 1, c :: cs =>
    if c = '<' then
      match afterTag cs with
      | some post => ' ' :: stripTagsGo fuel post
      | none => c :: stripTagsGo fuel cs
    else c :: stripTagsGo fuel cs

/-- Model of `HTML_TAG_RE.replace_all(_, " ")`: leftmost non-overlapping
occurrences of `<[^>]+>` each become one space. -/
def stripTags (l : List Char) : List Char :=
  stripTagsGo l.length l

theorem stripTagsGo_nil (fuel : Nat) : stripTagsGo fuel [] = [] := by
  cases fuel <;> rfl

theorem stripTagsGo_fuel {fuel fuel' : Nat} {l : List Char}
    (h : l.length ≤ fuel) (h' : l.length ≤ fuel') :
    stripTagsGo fuel l = stripTagsGo fuel' l := by
  induction fuel generalizing fuel' l with
  | zero =>
    have : l = [] := List.eq_nil_of_length_eq_zero (Nat.le_zero.mp h)
    subst this
    rw [stripTagsGo_nil, stripTagsGo_nil]
  | succ fuel ih =>
    cases l with
    | nil => rw [stripTagsGo_nil, stripTagsGo_nil]
    | cons c cs =>
      cases fuel' with
      | zero => simp at h'
      | succ fuel' =>
        simp only [List.length_cons, Nat.succ_le_succ_iff] at h h'
        simp only [stripTagsGo]
        split
        · split
          · rename_i heq
            have hr := afterTag_length heq
            rw [ih (Nat.le_of_lt (Nat.lt_of_lt_of_le hr h))
                  (Nat.le_of_lt (Nat.lt_of_lt_of_le hr h'))]
          · rw [ih h h']
        · rw [ih h h']

theorem stripTags_cons (c : Char) (cs : List Char) :
    stripTags (c :: cs) =
      (if c = '<' then
        match afterTag cs with
        | some post => ' ' :: stripTags post
        | none => c :: stripTags cs
      else c :: stripTags cs) := by
  show stripTagsGo (cs.length + 1) (c :: cs) = _
  simp only [stripTagsGo, stripTags]
  split
  · split
    · rename_i heq
      have hr := afterTag_length heq
      rw [stripTagsGo_fuel (Nat.le_of_lt hr) (Nat.le_refl _)]
    · rfl
  · rfl

/-- Model of `NBSP_RE.replace_all(_, " ")`. -/
def nbspToSpace (l : List Char) : List Char :=
  l.map (fun c => if isNbsp c then ' ' else c)

/-- Worker for `collapseWs`; fuel is irrelevant once it bounds the list
length. -/
def collapseWsGo : Nat → List Char → List Char
  | 0, _ => []
  | _, [] => []
  | fuel + 1, c :: cs =>
    if isWs c then ' ' :: collapseWsGo fuel (cs.dropWhile isWs)
    else c :: collapseWsGo fuel cs

/-- Model of `WHITESPACE_RE.replace_all(_, " ")`: each maximal run of
white space becomes a single space. -/
def collapseWs (l : List Char) : List Char :=
  collapseWsGo l.length l

theorem collapseWsGo_nil (fuel : Nat) : collapseWsGo fuel [] = [] := by
  cases fuel <;> rfl

theorem collapseWsGo_fuel {fuel fuel' : Nat} {l : List Char}
    (h : l.length ≤ fuel) (h' : l.length ≤ fuel') :
    collapseWsGo fuel l = collapseWsGo fuel' l := by
  induction fuel generalizing fuel' l with
  | zero =>
    have : l = [] := List.eq_nil_of_length_eq_zero (Nat.le_zero.mp h)
    subst this
    rw [collapseWsGo_nil, collapseWsGo_nil]
  | succ fuel ih =>
    cases l with
    | nil => rw [collapseWsGo_nil, collapseWsGo_nil]
    | cons c cs =>
      cases fuel' with
      | zero => simp at h'
      | succ fuel' =>
        simp only [List.length_cons, Nat.succ_le_succ_iff] at h h'
        simp only [collapseWsGo]
        split
        · have hd := length_dropWhile_le isWs cs
          rw [ih (Nat.le_trans hd h) (Nat.le_trans hd h')]
        · rw [ih h h']

theorem collapseWs_cons (c : Char) (cs : List Char) :
    collapseWs (c :: cs) =
      (if isWs c then ' ' :: collapseWs (cs.dropWhile isWs)
       else c :: collapseWs cs) := by
  show collapseWsGo (cs.length + 1) (c :: cs) = _
  simp only [collapseWsGo, collapseWs]
  split
  · rw [collapseWsGo_fuel (length_dropWhile_le isWs cs) (Nat.le_refl _)]
  · rfl

/-- Drop trailing white space (the right half of `str::trim`). -/
def dropWsEnd : List Char → List Char
  | [] => []
  | c :: cs =>
    match dropWsEnd cs with
    | [] => if isWs c then [] else [c]
    | ds => c :: ds

/-- Model of `str::trim`. -/
def trimChars (l : List Char) : List Char :=
  dropWsEnd (l.dropWhile isWs)

/-- The character-list pipeline of `clean_html`. -/
def cleanChars (l : List Char) : List Char :=
  if l.isEmpty then []
  else trimChars (collapseWs (nbspToSpace (stripTags (decodeEntities l))))

/-- `clean_html` from `cleaner.rs`. -/
def clean_html (s : String) : String :=
  String.mk (cleanChars s.data)

/-- Trim on strings (used by `ensure_source_requests`, which calls Rust's
`str::trim`). -/
def trimString (s : String) : String :=
  String.mk (trimChars s.data)

/-! ### Properties of the cleaner pipeline -/

theorem dropWhile_gt_ne_nil {cs : List Char} :
    cs.dropWhile neGt ≠ [] ↔ '>' ∈ cs := by
  induction cs with
  | nil => simp
  | cons c cs ih =>
    by_cases h : c = '>'
    · subst h; simp [List.dropWhile_cons, neGt]
    · simp [List.dropWhile_cons, neGt, h, ih, Ne.symm h]

theorem afterTag_isSome {cs : List Char} :
    (afterTag cs).isSome = true ↔ ('>' ∈ cs ∧ cs.head? ≠ some '>') := by
  cases cs with
  | nil => simp [afterTag]
  | cons c cs' =>
    by_cases h : c = '>'
    · subst h
      simp [afterTag, List.dropWhile_cons, List.takeWhile_cons, neGt]
    · have hdc : (c :: cs').dropWhile neGt = cs'.dropWhile neGt := by
        simp [List.dropWhile_cons, neGt_eq_true.mpr h]
      have htw : ((c :: cs').takeWhile neGt).isEmpty = false := by
        simp [List.takeWhile_cons, neGt_eq_true.mpr h]
      rcases hd : cs'.dropWhile neGt with _ | ⟨g, post⟩
      · have hnm : ¬ '>' ∈ cs' := fun hm => (dropWhile_gt_ne_nil.mpr hm) hd
        simp [afterTag, hdc, hd, h, Ne.symm h, hnm]
      · have hm : '>' ∈ cs' := dropWhile_gt_ne_nil.mp (by rw [hd]; simp)
        simp [afterTag, hdc, hd, htw, hm, h, Ne.symm h]

theorem afterTag_eq_none {cs : List Char} :
    afterTag cs = none ↔ ('>' ∉ cs ∨ cs.head? = some '>') := by
  rw [← Option.not_isSome_iff_eq_none, afterTag_isSome]
  tauto

theorem mem_of_mem_dropWhile {p : Char → Bool} {l : List Char} {c : Char}
    (h : c ∈ l.dropWhile p) : c ∈ l := by
  induction l with
  | nil => simp at h
  | cons d ds ih =>
    rw [List.dropWhile_cons] at h
    split at h
    · exact List.mem_cons_of_mem _ (ih h)
    · exact h

theorem mem_of_mem_afterTag {cs post : List Char} {c : Char}
    (h : afterTag cs = some post) (hm : c ∈ post) : c ∈ cs := by
  unfold afterTag at h
  split at h
  · simp at h
  · rename_i g post' heq
    split at h
    · simp at h
    · cases h
      exact mem_of_mem_dropWhile (l := cs) (by rw [heq]; exact List.mem_cons_of_mem _ hm)

theorem mem_stripTags {l : List Char} {c : Char} (h : c ∈ stripTags l) :
    c ∈ l ∨ c = ' ' := by
  have main : ∀ n (l : List Char), l.length ≤ n → ∀ c, c ∈ stripTags l → c ∈ l ∨ c = ' ' := by
    intro n
    induction n with
    | zero =>
      intro l hl c hc
      have : l = [] := List.eq_nil_of_length_eq_zero (Nat.le_zero.mp hl)
      subst this; simp [stripTags, stripTagsGo] at hc
    | succ n ih =>
      intro l hl c hc
      cases l with
      | nil => simp [stripTags, stripTagsGo] at hc
      | cons d ds =>
        simp only [List.length_cons, Nat.succ_le_succ_iff] at hl
        rw [stripTags_cons] at hc
        split at hc
        · rename_i hd
          split at hc
          · rename_i post heq
            rcases List.mem_cons.mp hc with h1 | h1
            · right; exact h1
            · rcases ih post (Nat.le_trans (Nat.le_of_lt (afterTag_length heq)) hl) c h1 with h2 | h2
              · left; exact List.mem_cons_of_mem _ (mem_of_mem_afterTag heq h2)
              · right; exact h2
          · rcases List.mem_cons.mp hc with h1 | h1
            · left; simp [h1]
            · rcases ih ds hl c h1 with h2 | h2
              · left; exact List.mem_cons_of_mem _ h2
              · right; exact h2
        · rcases List.mem_cons.mp hc with h1 | h1
          · left; simp [h1]
          · rcases ih ds hl c h1 with h2 | h2
            · left; exact List.mem_cons_of_mem _ h2
            · right; exact h2
  exact main l.length l (Nat.le_refl _) c h

theorem mem_collapseWs {l : List Char} {c : Char} (h : c ∈ collapseWs l) :
    c ∈ l ∨ c = ' ' := by
  have main : ∀ n (l : List Char), l.length ≤ n → ∀ c, c ∈ collapseWs l → c ∈ l ∨ c = ' ' := by
    intro n
    induction n with
    | zero =>
      intro l hl c hc
      have : l = [] := List.eq_nil_of_length_eq_zero (Nat.le_zero.mp hl)
      subst this; simp [collapseWs, collapseWsGo] at hc
    | succ n ih =>
      intro l hl c hc
      cases l with
      | nil => simp [collapseWs, collapseWsGo] at hc
      | cons d ds =>
        simp only [List.length_cons, Nat.succ_le_succ_iff] at hl
        rw [collapseWs_cons] at hc
        split at hc
        · rcases List.mem_cons.mp hc with h1 | h1
          · right; exact h1
          · rcases ih _ (Nat.le_trans (length_dropWhile_le isWs ds) hl) c h1 with h2 | h2
            · left; exact List.mem_cons_of_mem _ (mem_of_mem_dropWhile h2)
            · right; exact h2
        · rcases List.mem_cons.mp hc with h1 | h1
          · left; simp [h1]
          · rcases ih ds hl c h1 with h2 | h2
            · left; exact List.mem_cons_of_mem _ h2
            · right; exact h2
  exact main l.length l (Nat.le_refl _) c h

theorem mem_nbspToSpace {l : List Char} {c : Char} (h : c ∈ nbspToSpace l) :
    c ∈ l ∨ c = ' ' := by
  rcases List.mem_map.mp h with ⟨d, hd, hdc⟩
  by_cases hn : isNbsp d
  · right; simp [hn] at hdc; exact hdc.symm
  · left; simp [hn] at hdc; exact hdc ▸ hd

theorem mem_dropWsEnd {l : List Char} {c : Char} (h : c ∈ dropWsEnd l) : c ∈ l := by
  induction l with
  | nil => simp [dropWsEnd] at h
  | cons d ds ih =>
    rcases hds : dropWsEnd ds with _ | ⟨e, es⟩
    · simp only [dropWsEnd, hds] at h
      split at h
      · simp at h
      · simp at h; simp [h]
    · simp only [dropWsEnd, hds] at h
      rcases List.mem_cons.mp h with h1 | h1
      · simp [h1]
      · exact List.mem_cons_of_mem _ (ih (hds ▸ h1))

theorem mem_trimChars {l : List Char} {c : Char} (h : c ∈ trimChars l) : c ∈ l :=
  mem_of_mem_dropWhile (mem_dropWsEnd h)

/-- A position where the tag regex `<[^>]+>` matches exists somewhere in
the list. `stripTags` is the identity exactly on tag-free lists. -/
def hasTag : List Char → Bool
  | [] => false
  | c :: cs => (c == '<' && (afterTag cs).isSome) || hasTag cs

theorem hasTag_cons (c : Char) (cs : List Char) :
    hasTag (c :: cs) = ((c == '<' && (afterTag cs).isSome) || hasTag cs) := rfl

theorem head?_dropWsEnd {l : List Char} (h : dropWsEnd l ≠ []) :
    (dropWsEnd l).head? = l.head? := by
  cases l with
  | nil => simp [dropWsEnd] at h
  | cons c cs =>
    rcases hds : dropWsEnd cs with _ | ⟨e, es⟩
    · simp only [dropWsEnd, hds] at h ⊢
      split
      · simp_all
      · simp
    · simp [dropWsEnd, hds]

theorem dropWhile_head_not {p : Char → Bool} {l : List Char} {e : Char} {es : List Char}
    (h : l.dropWhile p = e :: es) : p e = false := by
  induction l with
  | nil => simp at h
  | cons c cs ih =>
    rw [List.dropWhile_cons] at h
    split at h
    · exact ih h
    · rename_i hc
      cases h
      simpa using hc

theorem hasTag_stripTags (l : List Char) : hasTag (stripTags l) = false := by
  have main : ∀ n (l : List Char), l.length ≤ n → hasTag (stripTags l) = false := by
    intro n
    induction n with
    | zero =>
      intro l hl
      have : l = [] := List.eq_nil_of_length_eq_zero (Nat.le_zero.mp hl)
      subst this; rfl
    | succ n ih =>
      intro l hl
      cases l with
      | nil => rfl
      | cons c cs =>
        simp only [List.length_cons, Nat.succ_le_succ_iff] at hl
        rw [stripTags_cons]
        by_cases hc : c = '<'
        · simp only [hc, if_true]
          rcases ha : afterTag cs with _ | post
          · have h2 : hasTag (stripTags cs) = false := ih cs hl
            have h3 : (afterTag (stripTags cs)).isSome = false := by
              by_contra hx
              rw [Bool.not_eq_false] at hx
              rcases afterTag_isSome.mp hx with ⟨hmem, hhead⟩
              rcases afterTag_eq_none.mp ha with hno | hhd
              · rcases mem_stripTags hmem with hin | hsp
                · exact hno hin
                · exact absurd hsp (by decide)
              · rcases cs with _ | ⟨d, ds⟩
                · simp at hhd
                · simp only [List.head?_cons, Option.some.injEq] at hhd
                  subst hhd
                  rw [stripTags_cons] at hhead
                  simp at hhead
            simp [hasTag, h2, h3]
          · have h2 : hasTag (stripTags post) = false :=
              ih post (Nat.le_trans (Nat.le_of_lt (afterTag_length ha)) hl)
            simp [hasTag, h2]
        · simp only [hc, if_false]
          have h2 : hasTag (stripTags cs) = false := ih cs hl
          simp [hasTag, h2, hc]
  exact main l.length l (Nat.le_refl _)

theorem stripTags_of_not_hasTag {l : List Char} (h : hasTag l = false) :
    stripTags l = l := by
  induction l with
  | nil => rfl
  | cons c cs ih =>
    simp only [hasTag, Bool.or_eq_false_iff, Bool.and_eq_false_iff] at h
    obtain ⟨h1, h2⟩ := h
    rw [stripTags_cons]
    by_cases hc : c = '<'
    · rcases h1 with h1 | h1
      · simp [hc] at h1
      · have : afterTag cs = none := by
          rcases ha : afterTag cs with _ | post
          · rfl
          · rw [ha] at h1; simp at h1
        simp only [hc, if_true, this]
        rw [ih h2]
    · simp only [hc, if_false]
      rw [ih h2]

theorem hasTag_append_right {a t : List Char} (h : hasTag t = true) :
    hasTag (a ++ t) = true := by
  induction a with
  | nil => simpa
  | cons x xs ih => simp [hasTag, ih]

theorem hasTag_append_left {b c : List Char} (h : hasTag b = true) :
    hasTag (b ++ c) = true := by
  induction b with
  | nil => simp [hasTag] at h
  | cons x xs ih =>
    simp only [hasTag, Bool.or_eq_true, Bool.and_eq_true] at h
    rcases h with ⟨hx, hs⟩ | h
    · have ⟨hmem, hhead⟩ := afterTag_isSome.mp hs
      have hxs : xs ≠ [] := by rintro rfl; simp at hmem
      have hs' : (afterTag (xs ++ c)).isSome = true := by
        rw [afterTag_isSome]
        constructor
        · exact List.mem_append_left _ hmem
        · rcases xs with _ | ⟨y, ys⟩
          · simp at hmem
          · simpa using hhead
      simp [hasTag, hx, hs']
    · simp [hasTag, ih h]

theorem hasTag_dropWhile {p : Char → Bool} {l : List Char}
    (h : hasTag (l.dropWhile p) = true) : hasTag l = true := by
  induction l with
  | nil => exact h
  | cons c cs ih =>
    rw [List.dropWhile_cons] at h
    split at h
    · simp [hasTag, ih h]
    · exact h

theorem hasTag_dropWsEnd {l : List Char} (h : hasTag (dropWsEnd l) = true) :
    hasTag l = true := by
  induction l with
  | nil => exact h
  | cons c cs ih =>
    rcases hds : dropWsEnd cs with _ | ⟨e, es⟩
    · simp only [dropWsEnd, hds] at h
      split at h
      · simp [hasTag] at h
      · simp [hasTag, afterTag] at h
    · simp only [dropWsEnd, hds] at h
      rw [hasTag_cons] at h
      simp only [Bool.or_eq_true, Bool.and_eq_true] at h
      rcases h with ⟨hx, hs⟩ | h
      · have ⟨hmem, hhead⟩ := afterTag_isSome.mp hs
        have hs' : (afterTag cs).isSome = true := by
          rw [afterTag_isSome]
          constructor
          · exact mem_dropWsEnd (hds ▸ hmem)
          · have := head?_dropWsEnd (l := cs) (by rw [hds]; simp)
            rw [hds] at this
            rw [← this]
            exact hhead
        simp [hasTag, hx, hs']
      · have : hasTag (dropWsEnd cs) = true := by rw [hds]; exact h
        simp [hasTag, ih this]

theorem hasTag_map {f : Char → Char} {l : List Char}
    (hlt : ∀ c, f c = '<' ↔ c = '<') (hgt : ∀ c, f c = '>' ↔ c = '>')
    (h : hasTag (l.map f) = true) : hasTag l = true := by
  induction l with
  | nil => exact h
  | cons c cs ih =>
    simp only [List.map_cons, hasTag, Bool.or_eq_true, Bool.and_eq_true] at h
    rcases h with ⟨hx, hs⟩ | h
    · have hc : c = '<' := (hlt c).mp (by simpa using hx)
      have ⟨hmem, hhead⟩ := afterTag_isSome.mp hs
      have hs' : (afterTag cs).isSome = true := by
        rw [afterTag_isSome]
        constructor
        · rcases List.mem_map.mp hmem with ⟨d, hd, hfd⟩
          have : d = '>' := (hgt d).mp hfd
          exact this ▸ hd
        · intro hcs
          rcases cs with _ | ⟨d, ds⟩
          · simp at hcs
          · simp only [List.head?_cons, Option.some.injEq] at hcs
            subst hcs
            have : f '>' = '>' := (hgt '>').mpr rfl
            simp [this] at hhead
      simp [hasTag, hc, hs']
    · simp [hasTag, ih h]

theorem hasTag_collapseWs {l : List Char}
    (h : hasTag (collapseWs l) = true) : hasTag l = true := by
  have main : ∀ n (l : List Char), l.length ≤ n →
      hasTag (collapseWs l) = true → hasTag l = true := by
    intro n
    induction n with
    | zero =>
      intro l hl h
      have : l = [] := List.eq_nil_of_length_eq_zero (Nat.le_zero.mp hl)
      subst this; simpa [collapseWs, collapseWsGo] using h
    | succ n ih =>
      intro l hl h
      cases l with
      | nil => simpa [collapseWs, collapseWsGo] using h
      | cons c cs =>
        simp only [List.length_cons, Nat.succ_le_succ_iff] at hl
        rw [collapseWs_cons] at h
        split at h
        · simp only [hasTag, Bool.or_eq_true, Bool.and_eq_true] at h
          rcases h with ⟨hx, -⟩ | h
          · simp at hx
          · have := ih _ (Nat.le_trans (length_dropWhile_le isWs cs) hl) h
            simp [hasTag, hasTag_dropWhile this]
        · rename_i hwc
          simp only [hasTag, Bool.or_eq_true, Bool.and_eq_true] at h
          rcases h with ⟨hx, hs⟩ | h
          · have ⟨hmem, hhead⟩ := afterTag_isSome.mp hs
            have hs' : (afterTag cs).isSome = true := by
              rw [afterTag_isSome]
              constructor
              · rcases mem_collapseWs hmem with h1 | h1
                · exact h1
                · exact absurd h1 (by decide)
              · intro hcs
                rcases cs with _ | ⟨d, ds⟩
                · simp at hcs
                · simp only [List.head?_cons, Option.some.injEq] at hcs
                  subst hcs
                  rw [collapseWs_cons] at hhead
                  have : isWs '>' = false := by decide
                  simp [this] at hhead
            simp only [hasTag, Bool.or_eq_true, Bool.and_eq_true]
            exact Or.inl ⟨hx, hs'⟩
          · simp [hasTag, ih cs hl h]
  exact main l.length l (Nat.le_refl _) h

/-- Invariant of `collapseWs` output: every white-space character is a
plain space and no two adjacent characters are both white space. -/
def collapsedOk : List Char → Bool
  | [] => true
  | c :: cs =>
    ((!isWs c) || c == ' ') &&
    (match cs with | [] => true | d :: _ => !(isWs c && isWs d)) &&
    collapsedOk cs

theorem collapsedOk_cons_iff {c : Char} {cs : List Char} :
    collapsedOk (c :: cs) = true ↔
      ((isWs c = false ∨ c = ' ') ∧
       (∀ d, cs.head? = some d → isWs c = false ∨ isWs d = false) ∧
       collapsedOk cs = true) := by
  cases cs with
  | nil =>
    show ((((!isWs c) || c == ' ') && true) && true) = true ↔ _
    simp [Bool.or_eq_true, Bool.not_eq_true', beq_iff_eq]
    exact fun _ => rfl
  | cons d ds =>
    show ((((!isWs c) || c == ' ') &&
        (!(isWs c && isWs d))) && collapsedOk (d :: ds)) = true ↔ _
    simp only [Bool.and_eq_true, Bool.or_eq_true, Bool.not_eq_true',
      Bool.and_eq_false_iff, beq_iff_eq, List.head?_cons, Option.some.injEq]
    constructor
    · rintro ⟨⟨h1, h2⟩, h3⟩
      exact ⟨h1, fun e he => he ▸ h2, h3⟩
    · rintro ⟨h1, h2, h3⟩
      exact ⟨⟨h1, h2 d rfl⟩, h3⟩

theorem collapsedOk_tail {c : Char} {cs : List Char}
    (h : collapsedOk (c :: cs) = true) : collapsedOk cs = true :=
  (collapsedOk_cons_iff.mp h).2.2

theorem collapseWs_eq_self_of_ok {l : List Char} (h : collapsedOk l = true) :
    collapseWs l = l := by
  induction l with
  | nil => rfl
  | cons c cs ih =>
    rw [collapseWs_cons]
    obtain ⟨h1, h2, h3⟩ := collapsedOk_cons_iff.mp h
    by_cases hw : isWs c
    · have hc : c = ' ' := by
        rcases h1 with h' | h'
        · rw [hw] at h'; simp at h'
        · exact h'
      have hdw : cs.dropWhile isWs = cs := by
        cases cs with
        | nil => rfl
        | cons d ds =>
          rcases h2 d rfl with h' | h'
          · rw [hw] at h'; simp at h'
          · simp [List.dropWhile_cons, h']
      rw [if_pos hw, hdw, ih h3, hc]
    · rw [if_neg hw, ih h3]

theorem collapsedOk_collapseWs (l : List Char) : collapsedOk (collapseWs l) = true := by
  have main : ∀ n (l : List Char), l.length ≤ n → collapsedOk (collapseWs l) = true := by
    intro n
    induction n with
    | zero =>
      intro l hl
      have : l = [] := List.eq_nil_of_length_eq_zero (Nat.le_zero.mp hl)
      subst this; rfl
    | succ n ih =>
      intro l hl
      cases l with
      | nil => rfl
      | cons c cs =>
        simp only [List.length_cons, Nat.succ_le_succ_iff] at hl
        rw [collapseWs_cons]
        by_cases hw : isWs c
        · rw [if_pos hw]
          have hok : collapsedOk (collapseWs (cs.dropWhile isWs)) = true :=
            ih _ (Nat.le_trans (length_dropWhile_le isWs cs) hl)
          rw [collapsedOk_cons_iff]
          refine ⟨Or.inr rfl, ?_, hok⟩
          intro d hd
          rcases hu : cs.dropWhile isWs with _ | ⟨e, es⟩
          · rw [hu] at hd; simp [collapseWs, collapseWsGo] at hd
          · have he : isWs e = false := dropWhile_head_not hu
            rw [hu, collapseWs_cons, if_neg (by simp [he])] at hd
            simp only [List.head?_cons, Option.some.injEq] at hd
            exact Or.inr (hd ▸ he)
        · rw [if_neg hw]
          have hok : collapsedOk (collapseWs cs) = true := ih cs hl
          rw [collapsedOk_cons_iff]
          exact ⟨Or.inl (by simpa using hw), fun d hd => Or.inl (by simpa using hw), hok⟩
  exact main l.length l (Nat.le_refl _)

theorem collapsedOk_dropWhile {l : List Char}
    (h : collapsedOk l = true) : collapsedOk (l.dropWhile isWs) = true := by
  induction l with
  | nil => exact h
  | cons c cs ih =>
    rw [List.dropWhile_cons]
    split
    · exact ih (collapsedOk_tail h)
    · exact h

theorem collapsedOk_dropWsEnd {l : List Char}
    (h : collapsedOk l = true) : collapsedOk (dropWsEnd l) = true := by
  induction l with
  | nil => exact h
  | cons c cs ih =>
    obtain ⟨h1, h2, h3⟩ := collapsedOk_cons_iff.mp h
    rcases hds : dropWsEnd cs with _ | ⟨e, es⟩
    · simp only [dropWsEnd, hds]
      split
      · rfl
      · rw [collapsedOk_cons_iff]
        exact ⟨h1, by simp, rfl⟩
    · simp only [dropWsEnd, hds]
      have htail : collapsedOk (e :: es) = true := by rw [← hds]; exact ih h3
      rw [collapsedOk_cons_iff]
      refine ⟨h1, ?_, htail⟩
      intro d hd
      simp only [List.head?_cons, Option.some.injEq] at hd
      subst hd
      have hhd := head?_dropWsEnd (l := cs) (by rw [hds]; simp)
      rw [hds] at hhd
      cases cs with
      | nil => simp at hhd
      | cons d' ds =>
        simp only [List.head?_cons, Option.some.injEq] at hhd
        exact h2 e (by simp [hhd])

theorem dropWhile_ws_idem (l : List Char) :
    (l.dropWhile isWs).dropWhile isWs = l.dropWhile isWs := by
  rcases hd : l.dropWhile isWs with _ | ⟨e, es⟩
  · rfl
  · have he : isWs e = false := dropWhile_head_not hd
    simp [List.dropWhile_cons, he]

theorem dropWsEnd_idem (l : List Char) : dropWsEnd (dropWsEnd l) = dropWsEnd l := by
  induction l with
  | nil => rfl
  | cons c cs ih =>
    rcases hds : dropWsEnd cs with _ | ⟨e, es⟩
    · by_cases hw : isWs c
      · have h0 : dropWsEnd (c :: cs) = [] := by simp [dropWsEnd, hds, hw]
        rw [h0]; rfl
      · have h0 : dropWsEnd (c :: cs) = [c] := by simp [dropWsEnd, hds, hw]
        rw [h0]
        simp [dropWsEnd, hw]
    · have h0 : dropWsEnd (c :: cs) = c :: e :: es := by simp [dropWsEnd, hds]
      rw [h0]
      rw [hds] at ih
      show (match dropWsEnd (e :: es) with
        | [] => if isWs c then [] else [c]
        | ds => c :: ds) = c :: e :: es
      rw [ih]

theorem dropWhile_dropWsEnd {l : List Char} (h : l.dropWhile isWs = l) :
    (dropWsEnd l).dropWhile isWs = dropWsEnd l := by
  cases l with
  | nil => rfl
  | cons c cs =>
    have hc : isWs c = false := by
      by_contra hx
      rw [Bool.not_eq_false] at hx
      rw [List.dropWhile_cons, if_pos hx] at h
      have := congrArg List.length h
      have hle := length_dropWhile_le isWs cs
      simp only [List.length_cons] at this
      omega
    rcases hds : dropWsEnd cs with _ | ⟨e, es⟩
    · simp only [dropWsEnd, hds]
      split
      · rfl
      · simp [List.dropWhile_cons, hc]
    · simp only [dropWsEnd, hds]
      simp [List.dropWhile_cons, hc]

theorem trimChars_trimChars (l : List Char) :
    trimChars (trimChars l) = trimChars l := by
  unfold trimChars
  rw [dropWhile_dropWsEnd (dropWhile_ws_idem l), dropWsEnd_idem]

theorem no_nbsp_nbspToSpace {l : List Char} {c : Char} (h : c ∈ nbspToSpace l) :
    isNbsp c = false := by
  rcases List.mem_map.mp h with ⟨d, -, hdc⟩
  by_cases hn : isNbsp d
  · simp only [hn, if_true] at hdc
    rw [← hdc]; decide
  · simp only [hn, if_false] at hdc
    rw [← hdc]; simpa using hn

theorem nbspToSpace_eq_self {l : List Char} (h : ∀ c ∈ l, isNbsp c = false) :
    nbspToSpace l = l := by
  induction l with
  | nil => rfl
  | cons c cs ih =>
    have hc := h c (by simp)
    simp only [nbspToSpace, List.map_cons, hc, if_false]
    have := ih (fun d hd => h d (List.mem_cons_of_mem _ hd))
    simpa [nbspToSpace] using this

theorem decodeEntities_no_amp {l : List Char} (h : '&' ∉ l) :
    decodeEntities l = l := by
  induction l with
  | nil => rfl
  | cons c cs ih =>
    have hc : ¬ c = '&' := fun hx => h (by simp [hx])
    rw [decodeEntities_cons]
    simp only [hc, if_false]
    rw [ih (fun hx => h (List.mem_cons_of_mem _ hx))]

theorem cleanChars_nil : cleanChars [] = [] := rfl

/-- Core fixed-point fact: on inputs with no `'&'`, one cleaning pass
yields a fixed point of the whole pipeline. -/
theorem cleanChars_fix {l : List Char} (h : '&' ∉ l) :
    cleanChars (cleanChars l) = cleanChars l := by
  by_cases hl : l.isEmpty
  · have : l = [] := by
      cases l with
      | nil => rfl
      | cons c cs => simp at hl
    subst this; rfl
  · have hstep : cleanChars l
        = trimChars (collapseWs (nbspToSpace (stripTags l))) := by
      unfold cleanChars
      rw [if_neg hl, decodeEntities_no_amp h]
    set s1 := stripTags l with hs1
    set s2 := nbspToSpace s1 with hs2
    set s3 := collapseWs s2 with hs3
    set y := trimChars s3 with hy
    rw [hstep]
    by_cases hye : y.isEmpty
    · have : y = [] := by
        cases hy2 : y with
        | nil => rfl
        | cons c cs => rw [hy2] at hye; simp at hye
      rw [this]; rfl
    · have hamp : '&' ∉ y := by
        intro hm
        have h3 := mem_trimChars hm
        rcases mem_collapseWs h3 with h2 | h2
        · rcases mem_nbspToSpace h2 with h1 | h1
          · rcases mem_stripTags h1 with h0 | h0
            · exact h h0
            · exact absurd h0 (by decide)
          · exact absurd h1 (by decide)
        · exact absurd h2 (by decide)
      have hnotag : hasTag y = false := by
        by_contra hx
        rw [Bool.not_eq_false] at hx
        have h3 : hasTag s3 = true := hasTag_dropWhile (hasTag_dropWsEnd hx)
        have h2 : hasTag s2 = true := hasTag_collapseWs h3
        have h1 : hasTag s1 = true := by
          refine hasTag_map (f := fun c => if isNbsp c then ' ' else c) ?_ ?_ h2
          · intro c
            by_cases hn : isNbsp c
            · simp only [hn, if_true]
              constructor
              · intro hx'; exact absurd hx' (by decide)
              · intro hx'; subst hx'; exact absurd hn (by decide)
            · simp [hn]
          · intro c
            by_cases hn : isNbsp c
            · simp only [hn, if_true]
              constructor
              · intro hx'; exact absurd hx' (by decide)
              · intro hx'; subst hx'; exact absurd hn (by decide)
            · simp [hn]
        rw [hasTag_stripTags l] at h1
        exact Bool.false_ne_true h1
      have hnonbsp : ∀ c ∈ y, isNbsp c = false := by
        intro c hm
        have h3 := mem_trimChars hm
        rcases mem_collapseWs h3 with h2 | h2
        · exact no_nbsp_nbspToSpace h2
        · rw [h2]; decide
      have hok : collapsedOk y = true :=
        collapsedOk_dropWsEnd (collapsedOk_dropWhile (collapsedOk_collapseWs s2))
      have htrim : trimChars y = y := trimChars_trimChars s3
      calc cleanChars y
          = trimChars (collapseWs (nbspToSpace (stripTags (decodeEntities y)))) := by
            unfold cleanChars; rw [if_neg hye]
        _ = trimChars (collapseWs (nbspToSpace (stripTags y))) := by
            rw [decodeEntities_no_amp hamp]
        _ = trimChars (collapseWs (nbspToSpace y)) := by
            rw [stripTags_of_not_hasTag hnotag]
        _ = trimChars (collapseWs y) := by rw [nbspToSpace_eq_self hnonbsp]
        _ = trimChars y := by rw [collapseWs_eq_self_of_ok hok]
        _ = y := htrim

/-- C4 (amended): `clean_html "" = ""`, and `clean_html` is idempotent on
every string that contains no `'&'` (hence no HTML character entity); full
idempotence fails because entity decoding happens on every pass, so a
cleaned output containing a freshly decoded entity is decoded again — see
the counterexample. -/
theorem c4_clean_idempotent_amended :
    clean_html "" = "" ∧
    ∀ s : String, '&' ∉ s.data → clean_html (clean_html s) = clean_html s := by
  constructor
  · rfl
  · intro s h
    show String.mk (cleanChars (String.mk (cleanChars s.data)).data) = _
    exact congrArg String.mk (cleanChars_fix h)

/-- C4 counterexample: the claim `clean(clean x) = clean x` for arbitrary
strings is false at `x = "&amp;nbsp;"`: the first pass decodes `&amp;` and
leaves the text `&nbsp;`, and the second pass decodes that to a no-break
space and trims it away. -/
theorem c4_counterexample :
    clean_html "&amp;nbsp;" = "&nbsp;" ∧
    clean_html (clean_html "&amp;nbsp;") = "" ∧
    clean_html (clean_html "&amp;nbsp;") ≠ clean_html "&amp;nbsp;" := by
  refine ⟨by decide, by decide, by decide⟩

/-- C4 witness: the amended idempotence applied at the concrete
`'&'`-free string `"<p>Hi  there</p>"`. -/
theorem c4_witness :
    '&' ∉ ("<p>Hi  there</p>" : String).data ∧
    clean_html (clean_html "<p>Hi  there</p>") = clean_html "<p>Hi  there</p>" :=
  ⟨by decide, c4_clean_idempotent_amended.2 "<p>Hi  there</p>" (by decide)⟩

/-! ### Data model (`types.rs`) and feed model

Rust structs become Lean structures with the same field names. The
`feed_rs::model` types (external crate) are embedded with exactly the
fields the parser reads: timestamps are modelled as their already
serialized RFC 3339 strings (the code only ever calls `to_rfc3339` on
them), and `chrono::Utc::now()` becomes an explicit `now` parameter. -/

structure SourceRequest where
  name : String
  urls : List String
deriving Repr, DecidableEq

structure RawFeed where
  source_name : String
  url : String
  xml : String
deriving Repr, DecidableEq

structure FetchError where
  source_name : String
  url : String
  message : String
deriving Repr, DecidableEq

inductive FetchResult where
  | success : RawFeed → FetchResult
  | error : FetchError → FetchResult
deriving Repr, DecidableEq

structure ParsedArticle where
  title : String
  link : String
  description : String
  published : String
  source : String
  image : Option String
  category : Option String
deriving Repr, DecidableEq

structure SubFeedStat where
  url : String
  status : String
  article_count : Nat
  error_message : Option String
deriving Repr, DecidableEq

structure SourceStats where
  name : String
  status : String
  article_count : Nat
  error_message : Option String
  sub_feeds : Option (List SubFeedStat)
deriving Repr, DecidableEq

structure RustMetrics where
  total_duration_ms : Nat
  fetch_duration_ms : Nat
  parse_duration_ms : Nat
  articles_parsed : Nat
deriving Repr, DecidableEq

/-- `source_stats` is a `HashMap<String, SourceStats>` in the code; it is
modelled as an association list with `List.lookup` (the code never inserts
the same key twice, see `parse_results`). -/
structure ParseResult where
  articles : List ParsedArticle
  source_stats : List (String × SourceStats)
  metrics : RustMetrics
deriving Repr, DecidableEq

/-- `ensure_source_requests` from `types.rs`: filter blank URLs per
request, then drop requests left with no URLs. -/
def ensure_source_requests (raw : List (String × List String)) : List SourceRequest :=
  (raw.map (fun p => SourceRequest.mk p.1
      (p.2.filter (fun url => !(trimString url).isEmpty)))).filter
    (fun req => !req.urls.isEmpty)

/-- `feed_rs::model::Link` (fields read by the code). -/
structure FeedLink where
  href : String
  title : Option String
  media_type : Option String
deriving Repr, DecidableEq

/-- `feed_rs::model::Content` (field read by the code). -/
structure FeedContent where
  body : Option String
deriving Repr, DecidableEq

/-- `feed_rs::model::MediaContent` (field read by the code). -/
structure FeedMediaContent where
  url : Option String
deriving Repr, DecidableEq

/-- `feed_rs::model::MediaObject` (field read by the code). -/
structure FeedMediaObject where
  content : List FeedMediaContent
deriving Repr, DecidableEq

/-- `feed_rs::model::Category` (fields read by the code). -/
structure FeedCategory where
  term : String
  label : Option String
deriving Repr, DecidableEq

/-- `feed_rs::model::Entry` (fields read by the code; `title` and
`summary` carry the `content` string of the `Text` value, `published` and
`updated` their RFC 3339 rendering). -/
structure Entry where
  title : Option String
  links : List FeedLink
  summary : Option String
  content : Option FeedContent
  published : Option String
  updated : Option String
  media : List FeedMediaObject
  categories : List FeedCategory
deriving Repr, DecidableEq

/-- `feed_rs::model::Feed` (field read by the code). -/
structure Feed where
  entries : List Entry
deriving Repr, DecidableEq

/-! ### Entry normalization (`parser.rs`) -/

/-- `pick_description` from `parser.rs`: the summary if present (even when
empty), else the content body if present, else the first link's title
(defaulted to `""`), else `none` when there is no link at all. -/
def pick_description (entry : Entry) : Option String :=
  match entry.summary with
  | some summary => some summary
  | none =>
    match entry.content with
    | some ⟨some body⟩ => some body
    | _ => entry.links.head?.map (fun link => link.title.getD "")

/-- `matches_media_image` from `parser.rs`. -/
def matches_media_image (media_type : Option String) : Bool :=
  match media_type with
  | some t => t.startsWith "image/" || t == "application/octet-stream"
  | none => false

/-- `pick_image` from `parser.rs`: the first media attachment's first
content URL when present, else the first link whose declared media type
indicates an image. -/
def pick_image (entry : Entry) : Option String :=
  match entry.media.head?.bind (fun m => m.content.head?.bind (fun c => c.url)) with
  | some url => some url
  | none =>
    (entry.links.find? (fun l => matches_media_image l.media_type)).map
      (fun l => l.href)

/-- The per-entry closure inside `extract_articles`: `None` exactly when
`entry.title` is absent or `entry.links` is empty (the two `?` operators
in the Rust closure). -/
def extract_entry (source_name now : String) (entry : Entry) : Option ParsedArticle := do
  let titleText ← entry.title
  let firstLink ← entry.links.head?
  let title := clean_html titleText
  let link := firstLink.href
  let description := clean_html ((pick_description entry).getD "")
  let published := (entry.published.or entry.updated).getD now
  let image := pick_image entry
  let category :=
    (entry.categories.head?.bind (fun c => c.label)).orElse
      (fun _ => entry.categories.head?.map (fun c => c.term))
  pure {
    title := title, link := link, description := description,
    published := published, source := source_name,
    image := image, category := category }

/-- `extract_articles` from `parser.rs` (rayon's indexed
`into_par_iter().filter_map().collect()` preserves entry order). -/
def extract_articles (entries : List Entry) (source_name now : String) :
    List ParsedArticle :=
  entries.filterMap (extract_entry source_name now)

/-! ### Per-source aggregation (`parse_source_group` in `parser.rs`)

`feed_rs::parser::parse` (the external feed decoder) is a parameter
`decode : String → Except String Feed`; its `Err` rendering is the
`{err}` interpolated into `"Parse error: {err}"`. -/

/-- One step of the accumulator loop in `parse_source_group`. The
accumulator mirrors the four Rust locals
`(articles, sub_stats, top_status, errors)`. -/
def groupStep (decode : String → Except String Feed) (now source_name : String)
    (acc : List ParsedArticle × List SubFeedStat × String × List String)
    (result : FetchResult) :
    List ParsedArticle × List SubFeedStat × String × List String :=
  let (articles, sub_stats, top_status, errors) := acc
  match result with
  | .success raw =>
    match decode raw.xml with
    | .ok feed =>
      let parsed := extract_articles feed.entries source_name now
      (articles ++ parsed,
       sub_stats ++ [⟨raw.url, "success", parsed.length, none⟩],
       top_status, errors)
    | .error err =>
      let msg := "Parse error: " ++ err
      (articles,
       sub_stats ++ [⟨raw.url, "error", 0, some msg⟩],
       "warning", errors ++ [msg])
  | .error err =>
    (articles,
     sub_stats ++ [⟨err.url, "error", 0, some err.message⟩],
     "warning", errors ++ [err.message])

/-- `parse_source_group` from `parser.rs`. -/
def parse_source_group (decode : String → Except String Feed)
    (now : String) (source_name : String) (results : List FetchResult) :
    List ParsedArticle × SourceStats :=
  let st := results.foldl (groupStep decode now source_name) ([], [], "success", [])
  let (articles, sub_stats, top_status, errors) := st
  (articles,
   { name := source_name, status := top_status,
     article_count := articles.length,
     error_message :=
       if errors.isEmpty then none else some (String.intercalate "; " errors),
     sub_feeds := if sub_stats.isEmpty then none else some sub_stats })

/-- The articles one outcome contributes (a decoded success contributes
its extracted articles; fetch failures and decode failures contribute
none). -/
def subArticlesOf (decode : String → Except String Feed) (now source_name : String) :
    FetchResult → List ParsedArticle
  | .success raw =>
    match decode raw.xml with
    | .ok feed => extract_articles feed.entries source_name now
    | .error _ => []
  | .error _ => []

/-- The sub-feed stat one outcome yields. -/
def subStatOf (decode : String → Except String Feed) (now source_name : String) :
    FetchResult → SubFeedStat
  | .success raw =>
    match decode raw.xml with
    | .ok feed =>
      ⟨raw.url, "success", (extract_articles feed.entries source_name now).length, none⟩
    | .error err => ⟨raw.url, "error", 0, some ("Parse error: " ++ err)⟩
  | .error err => ⟨err.url, "error", 0, some err.message⟩

/-- The error message one outcome contributes to the source-level join,
if any. -/
def errMsgOf (decode : String → Except String Feed) : FetchResult → Option String
  | .success raw =>
    match decode raw.xml with
    | .ok _ => none
    | .error err => some ("Parse error: " ++ err)
  | .error err => some err.message

theorem groupStep_loop (decode : String → Except String Feed)
    (now source_name : String) (results : List FetchResult)
    (a : List ParsedArticle) (st : List SubFeedStat) (t : String) (e : List String) :
    results.foldl (groupStep decode now source_name) (a, st, t, e) =
      (a ++ results.flatMap (subArticlesOf decode now source_name),
       st ++ results.map (subStatOf decode now source_name),
       if results.any (fun r => (errMsgOf decode r).isSome) then "warning" else t,
       e ++ results.filterMap (errMsgOf decode)) := by
  induction results generalizing a st t e with
  | nil => simp
  | cons r rs ih =>
    rw [List.foldl_cons]
    cases r with
    | success raw =>
      rcases hd : decode raw.xml with err | feed
      · simp only [groupStep, hd]
        rw [ih]
        simp [subArticlesOf, subStatOf, errMsgOf, hd, List.flatMap_cons,
          List.map_cons, List.filterMap_cons, List.any_cons]
      · simp only [groupStep, hd]
        rw [ih]
        simp [subArticlesOf, subStatOf, errMsgOf, hd, List.flatMap_cons,
          List.map_cons, List.filterMap_cons, List.any_cons]
    | error err =>
      simp only [groupStep]
      rw [ih]
      simp [subArticlesOf, subStatOf, errMsgOf, List.flatMap_cons,
        List.map_cons, List.filterMap_cons, List.any_cons]

/-- Closed form of `parse_source_group`. -/
theorem parse_source_group_spec (decode : String → Except String Feed)
    (now source_name : String) (results : List FetchResult) :
    parse_source_group decode now source_name results =
      (results.flatMap (subArticlesOf decode now source_name),
       { name := source_name,
         status := if results.any (fun r => (errMsgOf decode r).isSome)
           then "warning" else "success",
         article_count := (results.flatMap (subArticlesOf decode now source_name)).length,
         error_message :=
           if (results.filterMap (errMsgOf decode)).isEmpty then none
           else some (String.intercalate "; " (results.filterMap (errMsgOf decode))),
         sub_feeds :=
           if (results.map (subStatOf decode now source_name)).isEmpty then none
           else some (results.map (subStatOf decode now source_name)) }) := by
  unfold parse_source_group
  rw [groupStep_loop]
  simp

/-! ### Run-level aggregation (`parse_results`, `parse_sources`)

The Rust code groups outcomes into a `HashMap<String, Vec<FetchResult>>`
(preserving per-key insertion order) and processes groups with
`par_iter`, whose collection order over the map is arbitrary. The model
fixes first-occurrence order for the groups; no theorem below depends on
the cross-group order. -/

/-- The source name carried by an outcome. -/
def sourceNameOf : FetchResult → String
  | .success raw => raw.source_name
  | .error err => err.source_name

/-- Worker for `firstDedup`; fuel is irrelevant once it bounds the list
length. -/
def firstDedupGo : Nat → List String → List String
  | 0, _ => []
  | _, [] => []
  | fuel + 1, n :: ns => n :: firstDedupGo fuel (ns.filter (fun m => m ≠ n))

/-- First-occurrence-ordered list of the distinct names in `l` (the key
set of the Rust `HashMap`). -/
def firstDedup (l : List String) : List String :=
  firstDedupGo l.length l

theorem firstDedupGo_nil (fuel : Nat) : firstDedupGo fuel [] = [] := by
  cases fuel <;> rfl

theorem firstDedupGo_fuel {fuel fuel' : Nat} {l : List String}
    (h : l.length ≤ fuel) (h' : l.length ≤ fuel') :
    firstDedupGo fuel l = firstDedupGo fuel' l := by
  induction fuel generalizing fuel' l with
  | zero =>
    have : l = [] := List.eq_nil_of_length_eq_zero (Nat.le_zero.mp h)
    subst this
    rw [firstDedupGo_nil, firstDedupGo_nil]
  | succ fuel ih =>
    cases l with
    | nil => rw [firstDedupGo_nil, firstDedupGo_nil]
    | cons n ns =>
      cases fuel' with
      | zero => simp at h'
      | succ fuel' =>
        simp only [List.length_cons, Nat.succ_le_succ_iff] at h h'
        simp only [firstDedupGo]
        have hf := List.length_filter_le (fun m => m ≠ n) ns
        rw [ih (Nat.le_trans hf h) (Nat.le_trans hf h')]

theorem firstDedup_cons (n : String) (ns : List String) :
    firstDedup (n :: ns) = n :: firstDedup (ns.filter (fun m => m ≠ n)) := by
  show firstDedupGo (ns.length + 1) (n :: ns) = _
  simp only [firstDedupGo, firstDedup]
  rw [firstDedupGo_fuel (List.length_filter_le _ _) (Nat.le_refl _)]

/-- Grouping by source name: each distinct name paired with its outcomes
in encounter order (as `HashMap::entry().or_default().push` produces). -/
def groupByName (l : List FetchResult) : List (String × List FetchResult) :=
  (firstDedup (l.map sourceNameOf)).map
    (fun n => (n, l.filter (fun r => sourceNameOf r = n)))

/-- The stat injected by the resurrection loop of `parse_results` for a
requested source with no fetch outcome. -/
def noFetchStat (name : String) : SourceStats :=
  ⟨name, "warning", 0, some "No fetch attempts", none⟩

/-- One step of the `or_insert_with` loop over `original_sources`. -/
def resurrectStep (acc : List (String × SourceStats)) (source : SourceRequest) :
    List (String × SourceStats) :=
  if (acc.lookup source.name).isSome then acc
  else acc ++ [(source.name, noFetchStat source.name)]

/-- `parse_results` from `parser.rs`. -/
def parse_results (decode : String → Except String Feed) (now : String)
    (fetch_results : List FetchResult) (original_sources : List SourceRequest) :
    List ParsedArticle × List (String × SourceStats) :=
  let grouped := groupByName fetch_results
  let articles_stats := grouped.map
    (fun g => parse_source_group decode now g.1 g.2)
  let articles := articles_stats.flatMap (fun p => p.1)
  let stats0 := articles_stats.map (fun p => (p.2.name, p.2))
  let stats := original_sources.foldl resurrectStep stats0
  (articles, stats)

/-! ### Fetch phase (`fetcher.rs`) and entry point (`lib.rs`)

The network is a parameter: `oracle source_name url` is the
`FetchResult` the spawned task for that `(source, URL)` pair produces.
`fetch_one` models the outcome classification inside each task, given the
three-stage behaviour of the HTTP interaction. Completion-order
nondeterminism of `JoinSet::join_next` is not modelled; no theorem below
depends on the order of the outcome list. -/

/-- The behaviour of one HTTP GET: transport failure, or a response with
a status classification and a body read that may itself fail. -/
structure NetResponse where
  okStatus : Bool
  statusMessage : String
  bodyResult : Except String String
deriving Repr

inductive NetBehaviour where
  | conn : String → NetBehaviour
  | resp : NetResponse → NetBehaviour
deriving Repr

/-- The outcome classification of one fetch task in `fetch_all`
(`fetcher.rs` lines 38–63): transport error, non-2xx status error, and
body-read error all collapse to `FetchResult::Error` with a message. -/
def fetch_one (net : NetBehaviour) (source_name url : String) : FetchResult :=
  match net with
  | .conn err => .error ⟨source_name, url, err⟩
  | .resp r =>
    if r.okStatus then
      match r.bodyResult with
      | .ok body => .success ⟨source_name, url, body⟩
      | .error err => .error ⟨source_name, url, "Failed to read body: " ++ err⟩
    else .error ⟨source_name, url, r.statusMessage⟩

/-- `fetch_all` from `fetcher.rs`: one task per (source, URL) pair. The
semaphore only bounds concurrency (see the transition system below) and
does not affect the set of outcomes. -/
def fetch_all (net : String → String → NetBehaviour)
    (sources : List SourceRequest) (max_concurrent : Nat) : List FetchResult :=
  let _ := Nat.max max_concurrent 1
  sources.flatMap (fun source =>
    source.urls.map (fun url => fetch_one (net source.name url) source.name url))

/-- `parse_sources` from `parser.rs`. Wall-clock durations are opaque
inputs. -/
def parse_sources (decode : String → Except String Feed) (now : String)
    (net : String → String → NetBehaviour)
    (sources : List SourceRequest) (max_concurrent : Nat)
    (totalMs fetchMs parseMs : Nat) : ParseResult :=
  let fetch_results := fetch_all net sources max_concurrent
  let ap := parse_results decode now fetch_results sources
  { metrics := {
      total_duration_ms := totalMs,
      fetch_duration_ms := fetchMs,
      parse_duration_ms := parseMs,
      articles_parsed := ap.1.length },
    articles := ap.1,
    source_stats := ap.2 }

/-- `parse_feeds_parallel` from `lib.rs`: `runtime` is the result of
`tokio::runtime::Runtime::new()`; its failure is the only hard failure of
a run and aborts before any fetching or parsing. -/
def parse_feeds_parallel (runtime : Except String Unit)
    (decode : String → Except String Feed) (now : String)
    (net : String → String → NetBehaviour)
    (sources : List (String × List String)) (max_concurrent : Option Nat)
    (totalMs fetchMs parseMs : Nat) : Except String ParseResult :=
  match runtime with
  | .error err => .error ("Failed to start Tokio runtime: " ++ err)
  | .ok _ =>
    let source_requests := ensure_source_requests sources
    let limit := Nat.max (max_concurrent.getD 32) 1
    .ok (parse_sources decode now net source_requests limit totalMs fetchMs parseMs)

/-! ### Helper facts about per-outcome stats -/

theorem subStatOf_status_error (decode : String → Except String Feed)
    (now source_name : String) (r : FetchResult) :
    ((subStatOf decode now source_name r).status = "error"
      ↔ (errMsgOf decode r).isSome = true) := by
  cases r with
  | success raw =>
    rcases hd : decode raw.xml with err | feed
    · simp [subStatOf, errMsgOf, hd]
    · simp only [subStatOf, errMsgOf, hd]
      constructor
      · intro h; exact absurd h (by decide)
      · intro h; simp at h
  | error err => simp [subStatOf, errMsgOf]

theorem subStatOf_error_message (decode : String → Except String Feed)
    (now source_name : String) (r : FetchResult) :
    (subStatOf decode now source_name r).error_message = errMsgOf decode r := by
  cases r with
  | success raw => rcases hd : decode raw.xml with err | feed <;> simp [subStatOf, errMsgOf, hd]
  | error err => simp [subStatOf, errMsgOf]

theorem optList_getD {α : Type} (l : List α) :
    (if l.isEmpty then (none : Option (List α)) else some l).getD [] = l := by
  cases l <;> rfl

/-- C7: in every run result, `metrics.articles_parsed` equals the length
of the returned article list (both are set from the same vector in
`parse_sources`). -/
theorem c7_articles_parsed_eq_length (decode : String → Except String Feed)
    (now : String) (net : String → String → NetBehaviour)
    (sources : List SourceRequest) (max_concurrent totalMs fetchMs parseMs : Nat) :
    (parse_sources decode now net sources max_concurrent totalMs fetchMs parseMs).metrics.articles_parsed
      = (parse_sources decode now net sources max_concurrent totalMs fetchMs parseMs).articles.length := rfl

/-- C2: a source group's stat has status `"warning"` iff at least one of
its sub-feeds has status `"error"` (fetch failure or decode failure), and
status `"success"` otherwise; no other status value is possible; the
source `error_message` is absent when no sub-feed errored and otherwise
joins the sub-feed error messages with `"; "` in encounter order. -/
theorem c2_source_status_aggregation (decode : String → Except String Feed)
    (now source_name : String) (results : List FetchResult) :
    ((parse_source_group decode now source_name results).2.status = "success" ∨
     (parse_source_group decode now source_name results).2.status = "warning") ∧
    ((parse_source_group decode now source_name results).2.status = "warning" ↔
      ∃ sub ∈ ((parse_source_group decode now source_name results).2.sub_feeds.getD []),
        sub.status = "error") ∧
    (parse_source_group decode now source_name results).2.error_message =
      (if (((parse_source_group decode now source_name results).2.sub_feeds.getD []).filterMap
            (fun sub => sub.error_message)).isEmpty
       then none
       else some (String.intercalate "; "
         (((parse_source_group decode now source_name results).2.sub_feeds.getD []).filterMap
           (fun sub => sub.error_message)))) := by
  rw [parse_source_group_spec]
  simp only [optList_getD]
  have hmsgs : (results.map (subStatOf decode now source_name)).filterMap
      (fun sub => sub.error_message) = results.filterMap (errMsgOf decode) := by
    rw [List.filterMap_map]
    apply List.filterMap_congr
    intro r _
    exact subStatOf_error_message decode now source_name r
  refine ⟨?_, ?_, ?_⟩
  · split
    · exact Or.inr rfl
    · exact Or.inl rfl
  · constructor
    · intro h
      have hany : results.any (fun r => (errMsgOf decode r).isSome) = true := by
        by_contra hx
        rw [Bool.not_eq_true] at hx
        rw [hx] at h
        simp at h
      rcases List.any_eq_true.mp hany with ⟨r, hr, hsome⟩
      exact ⟨subStatOf decode now source_name r,
        List.mem_map_of_mem _ hr,
        (subStatOf_status_error decode now source_name r).mpr hsome⟩
    · rintro ⟨sub, hmem, hstatus⟩
      rcases List.mem_map.mp hmem with ⟨r, hr, rfl⟩
      have hsome := (subStatOf_status_error decode now source_name r).mp hstatus
      have hany : results.any (fun r => (errMsgOf decode r).isSome) = true :=
        List.any_eq_true.mpr ⟨r, hr, hsome⟩
      rw [hany]
      simp
  · rw [hmsgs]

/-- C3 (amended): an entry yields an article iff its `title` field is
present (possibly empty after cleaning) and it has at least one link;
dropped entries leave no record and extraction is per-entry, so a drop
never affects sibling entries. The claim's "non-empty title" is corrected
to "present title": the Rust `?` operator only tests presence. -/
theorem c3_entry_drop_amended (source_name now : String) (entries : List Entry) :
    extract_articles entries source_name now
      = entries.filterMap (extract_entry source_name now) ∧
    (∀ e : Entry, (extract_entry source_name now e).isSome
      ↔ (e.title.isSome = true ∧ e.links ≠ [])) ∧
    (∀ e : Entry, extract_articles (entries ++ [e]) source_name now
      = extract_articles entries source_name now
        ++ extract_articles [e] source_name now) := by
  refine ⟨rfl, ?_, ?_⟩
  · intro e
    rcases ht : e.title with _ | t
    · simp [extract_entry, ht]
    · rcases hl : e.links with _ | ⟨l, ls⟩
      · simp [extract_entry, ht, hl]
      · simp [extract_entry, ht, hl, Option.bind]
  · intro e
    unfold extract_articles
    rw [List.filterMap_append]

/-- C3 counterexample: an entry whose title is present but empty (and
which has a link) is not dropped — it yields an article with an empty
title, contradicting "produces an Article if and only if it has a
non-empty title and at least one link". -/
theorem c3_counterexample :
    extract_articles
      [{ title := some "", links := [⟨"http://x", none, none⟩], summary := none,
         content := none, published := none, updated := none, media := [],
         categories := [] }] "s" "t"
    = [{ title := "", link := "http://x", description := "", published := "t",
         source := "s", image := none, category := none }] := by decide

/-- C3 witness: the amended drop rule applied at a concrete entry with a
present title and one link. -/
theorem c3_witness :
    (extract_entry "s" "t"
      { title := some "hi", links := [⟨"http://x", none, none⟩], summary := none,
        content := none, published := none, updated := none, media := [],
        categories := [] }).isSome
    ↔ ((some "hi" : Option String).isSome = true ∧
       ([⟨"http://x", none, none⟩] : List FeedLink) ≠ []) :=
  (c3_entry_drop_amended "s" "t" []).2.1
    { title := some "hi", links := [⟨"http://x", none, none⟩], summary := none,
      content := none, published := none, updated := none, media := [],
      categories := [] }

/-- The description rule as the spec words it (for comparison with the
code): the first non-empty value among summary text, main content body,
and first link title, else the empty string; then text-cleaned. -/
def spec_description (e : Entry) : String :=
  clean_html
    (((([e.summary, e.content.bind (fun c => c.body),
        e.links.head?.map (fun l => l.title.getD "")].filterMap id).find?
          (fun v => !v.isEmpty)).getD ""))

theorem extract_entry_description {source_name now : String} {e : Entry}
    {a : ParsedArticle} (h : extract_entry source_name now e = some a) :
    a.description = clean_html ((pick_description e).getD "") := by
  rcases ht : e.title with _ | t
  · simp [extract_entry, ht] at h
  · rcases hl : e.links with _ | ⟨l, ls⟩
    · simp [extract_entry, ht, hl] at h
    · simp only [extract_entry, ht, hl, List.head?_cons, Option.bind_eq_bind,
        Option.some_bind, Option.pure_def, Option.some.injEq] at h
      rw [← h]

/-- C5 (amended): the article description is the text-cleaned value of
`pick_description`, and `pick_description` takes the summary whenever the
summary field is present — even when it is the empty string — else the
content body when present, else the first link's title defaulted to
empty. "First non-empty" in the claim is corrected to "first present":
an empty-but-present summary shadows a non-empty content body. -/
theorem c5_description_amended :
    (∀ (source_name now : String) (e : Entry) (a : ParsedArticle),
      extract_articles [e] source_name now = [a] →
      a.description = clean_html ((pick_description e).getD "")) ∧
    (∀ e : Entry, pick_description e =
      (e.summary.orElse (fun _ => (e.content.bind (fun c => c.body)).orElse
        (fun _ => e.links.head?.map (fun l => l.title.getD ""))))) := by
  constructor
  · intro source_name now e a h
    simp only [extract_articles, List.filterMap_cons, List.filterMap_nil] at h
    rcases he : extract_entry source_name now e with _ | b
    · rw [he] at h; simp at h
    · rw [he] at h
      simp only [List.append_nil, List.cons.injEq, and_true] at h
      subst h
      exact extract_entry_description he
  · intro e
    rcases hs : e.summary with _ | sv
    · rcases hc : e.content with _ | ⟨body⟩
      · simp [pick_description, hs, hc, Option.orElse]
      · rcases hb : body with _ | bv
        · simp [pick_description, hs, hc, hb, Option.orElse]
        · simp [pick_description, hs, hc, hb, Option.orElse]
    · simp [pick_description, hs, Option.orElse]

/-- C5 counterexample: an entry with a present-but-empty summary and a
non-empty content body. The claim's rule ("first non-empty of summary,
content body, first link title") yields `"hello"`, but the code yields
`""`, because the summary is taken whenever present. -/
theorem c5_counterexample :
    pick_description
      { title := some "t", links := [⟨"http://x", none, none⟩], summary := some "",
        content := some ⟨some "hello"⟩, published := none, updated := none,
        media := [], categories := [] } = some "" ∧
    spec_description
      { title := some "t", links := [⟨"http://x", none, none⟩], summary := some "",
        content := some ⟨some "hello"⟩, published := none, updated := none,
        media := [], categories := [] } = "hello" ∧
    (extract_articles
      [{ title := some "t", links := [⟨"http://x", none, none⟩], summary := some "",
         content := some ⟨some "hello"⟩, published := none, updated := none,
         media := [], categories := [] }] "s" "n").map (fun a => a.description)
      = [""] ∧
    ("" : String) ≠ "hello" := by
  refine ⟨by decide, by decide, by decide, by decide⟩

/-- C5 witness: the amended description rule applied at a concrete
entry. -/
theorem c5_witness :
    extract_articles
      [{ title := some "t", links := [⟨"http://x", none, none⟩],
         summary := some "s u m", content := none, published := none,
         updated := none, media := [], categories := [] }] "src" "n"
      = [{ title := "t", link := "http://x", description := "s u m",
           published := "n", source := "src", image := none, category := none }] ∧
    ({ title := "t", link := "http://x", description := "s u m",
       published := "n", source := "src", image := none,
       category := none } : ParsedArticle).description
      = clean_html ((pick_description
          { title := some "t", links := [⟨"http://x", none, none⟩],
            summary := some "s u m", content := none, published := none,
            updated := none, media := [], categories := [] }).getD "") :=
  ⟨by decide, c5_description_amended.1 "src" "n" _ _ (by decide)⟩

/-! ### Lookup facts for the stats map -/

theorem lookup_append_some {a b : List (String × SourceStats)} {k : String}
    {v : SourceStats} (h : a.lookup k = some v) : (a ++ b).lookup k = some v := by
  induction a with
  | nil => simp [List.lookup] at h
  | cons p ps ih =>
    obtain ⟨pk, pv⟩ := p
    rcases hk : (k == pk) with _ | _
    · rw [List.lookup_cons] at h
      rw [hk] at h
      simp only [Bool.false_eq_true, if_false] at h
      simp only [List.cons_append, List.lookup_cons, hk, Bool.false_eq_true, if_false]
      exact ih h
    · rw [List.lookup_cons] at h
      rw [hk] at h
      simp only [if_true] at h
      simp only [List.cons_append, List.lookup_cons, hk, if_true]
      exact h

theorem lookup_append_none {a b : List (String × SourceStats)} {k : String}
    (h : a.lookup k = none) : (a ++ b).lookup k = b.lookup k := by
  induction a with
  | nil => simp
  | cons p ps ih =>
    obtain ⟨pk, pv⟩ := p
    rcases hk : (k == pk) with _ | _
    · rw [List.lookup_cons] at h
      rw [hk] at h
      simp only [Bool.false_eq_true, if_false] at h
      simp only [List.cons_append, List.lookup_cons, hk, Bool.false_eq_true, if_false]
      exact ih h
    · rw [List.lookup_cons] at h
      rw [hk] at h
      simp at h

theorem lookup_resurrect_preserved {srcs : List SourceRequest}
    {acc : List (String × SourceStats)} {k : String} {v : SourceStats}
    (h : acc.lookup k = some v) :
    (srcs.foldl resurrectStep acc).lookup k = some v := by
  induction srcs generalizing acc with
  | nil => exact h
  | cons src rest ih =>
    rw [List.foldl_cons]
    apply ih
    unfold resurrectStep
    split
    · exact h
    · exact lookup_append_some h

theorem lookup_singleton_self (k : String) (v : SourceStats) :
    List.lookup k [(k, v)] = some v := by
  simp [List.lookup_cons]

theorem lookup_resurrect_mem {srcs : List SourceRequest}
    {acc : List (String × SourceStats)} {src : SourceRequest}
    (h : src ∈ srcs) :
    ((srcs.foldl resurrectStep acc).lookup src.name).isSome = true := by
  induction srcs generalizing acc with
  | nil => simp at h
  | cons s rest ih =>
    rw [List.foldl_cons]
    rcases List.mem_cons.mp h with rfl | h'
    · have hsome : ((resurrectStep acc src).lookup src.name).isSome = true := by
        unfold resurrectStep
        split
        · assumption
        · rename_i hnone
          have hnone' : acc.lookup src.name = none :=
            Option.not_isSome_iff_eq_none.mp (by simp [hnone])
          rw [lookup_append_none hnone', lookup_singleton_self]
          rfl
      rcases hv : (resurrectStep acc src).lookup src.name with _ | v
      · rw [hv] at hsome; simp at hsome
      · rw [lookup_resurrect_preserved hv]
        rfl
    · exact ih h'

theorem lookup_resurrect_inserts {srcs : List SourceRequest}
    {acc : List (String × SourceStats)} {name : String}
    (hnone : acc.lookup name = none) (hmem : ∃ s ∈ srcs, s.name = name) :
    (srcs.foldl resurrectStep acc).lookup name = some (noFetchStat name) := by
  induction srcs generalizing acc with
  | nil => simp at hmem
  | cons s rest ih =>
    rw [List.foldl_cons]
    by_cases hs : s.name = name
    · have hstep : (resurrectStep acc s).lookup name = some (noFetchStat name) := by
        unfold resurrectStep
        rw [hs, hnone]
        simp only [Option.isSome_none, Bool.false_eq_true, if_false]
        rw [lookup_append_none hnone, lookup_singleton_self]
      exact lookup_resurrect_preserved hstep
    · have hstep : (resurrectStep acc s).lookup name = none := by
        unfold resurrectStep
        split
        · exact hnone
        · rw [lookup_append_none hnone]
          have hbeq : (name == s.name) = false := by
            rw [beq_eq_false_iff_ne]
            exact fun hx => hs hx.symm
          rw [List.lookup_cons, hbeq]
          simp [List.lookup]
      have hmem' : ∃ s' ∈ rest, s'.name = name := by
        rcases hmem with ⟨s', hmem', hname⟩
        rcases List.mem_cons.mp hmem' with rfl | h'
        · exact absurd hname hs
        · exact ⟨s', h', hname⟩
      exact ih hstep hmem'

theorem mem_firstDedup {m : String} {l : List String} :
    m ∈ firstDedup l ↔ m ∈ l := by
  have main : ∀ n (l : List String), l.length ≤ n → (m ∈ firstDedup l ↔ m ∈ l) := by
    intro n
    induction n with
    | zero =>
      intro l hl
      have : l = [] := List.eq_nil_of_length_eq_zero (Nat.le_zero.mp hl)
      subst this; simp [firstDedup, firstDedupGo]
    | succ n ih =>
      intro l hl
      cases l with
      | nil => simp [firstDedup, firstDedupGo]
      | cons x xs =>
        simp only [List.length_cons, Nat.succ_le_succ_iff] at hl
        rw [firstDedup_cons]
        by_cases hx : m = x
        · subst hx; simp
        · simp only [List.mem_cons, hx, false_or]
          rw [ih _ (Nat.le_trans (List.length_filter_le _ _) hl)]
          simp [List.mem_filter, hx]
  exact main l.length l (Nat.le_refl _)

theorem nodup_firstDedup (l : List String) : (firstDedup l).Nodup := by
  have main : ∀ n (l : List String), l.length ≤ n → (firstDedup l).Nodup := by
    intro n
    induction n with
    | zero =>
      intro l hl
      have : l = [] := List.eq_nil_of_length_eq_zero (Nat.le_zero.mp hl)
      subst this; simp [firstDedup, firstDedupGo]
    | succ n ih =>
      intro l hl
      cases l with
      | nil => simp [firstDedup, firstDedupGo]
      | cons x xs =>
        simp only [List.length_cons, Nat.succ_le_succ_iff] at hl
        rw [firstDedup_cons]
        refine List.nodup_cons.mpr ⟨?_, ih _ (Nat.le_trans (List.length_filter_le _ _) hl)⟩
        intro hmem
        have := mem_firstDedup.mp hmem
        rcases List.mem_filter.mp this with ⟨-, hne⟩
        simp at hne
  exact main l.length l (Nat.le_refl _)

theorem lookup_map_pairs_some {f : String → SourceStats} {names : List String}
    {k : String} (h : k ∈ names) :
    (names.map (fun n => (n, f n))).lookup k = some (f k) := by
  induction names with
  | nil => simp at h
  | cons n ns ih =>
    rw [List.map_cons, List.lookup_cons]
    by_cases hk : k = n
    · subst hk
      simp
    · have hbeq : (k == n) = false := by
        rw [beq_eq_false_iff_ne]; exact hk
      rw [hbeq]
      simp only [Bool.false_eq_true, if_false]
      exact ih ((List.mem_cons.mp h).resolve_left hk)

theorem lookup_map_pairs_none {f : String → SourceStats} {names : List String}
    {k : String} (h : k ∉ names) :
    (names.map (fun n => (n, f n))).lookup k = none := by
  induction names with
  | nil => rfl
  | cons n ns ih =>
    rw [List.map_cons, List.lookup_cons]
    have hk : ¬ k = n := fun hx => h (by simp [hx])
    have hbeq : (k == n) = false := by rw [beq_eq_false_iff_ne]; exact hk
    rw [hbeq]
    simp only [Bool.false_eq_true, if_false]
    exact ih (fun hx => h (List.mem_cons_of_mem _ hx))

theorem parse_source_group_name (decode : String → Except String Feed)
    (now source_name : String) (results : List FetchResult) :
    (parse_source_group decode now source_name results).2.name = source_name := by
  rw [parse_source_group_spec]

/-- The stats side of `parse_results` as a resurrection fold over a
key-indexed map of the per-group stats. -/
theorem parse_results_stats (decode : String → Except String Feed) (now : String)
    (frs : List FetchResult) (sources : List SourceRequest) :
    (parse_results decode now frs sources).2 =
      sources.foldl resurrectStep
        ((firstDedup (frs.map sourceNameOf)).map
          (fun n => (n, (parse_source_group decode now n
            (frs.filter (fun r => sourceNameOf r = n))).2))) := by
  unfold parse_results groupByName
  simp only [List.map_map]
  congr 1

/-- The articles side of `parse_results` as a concatenation over the
distinct source names. -/
theorem parse_results_articles (decode : String → Except String Feed) (now : String)
    (frs : List FetchResult) (sources : List SourceRequest) :
    (parse_results decode now frs sources).1 =
      (firstDedup (frs.map sourceNameOf)).flatMap
        (fun n => (parse_source_group decode now n
          (frs.filter (fun r => sourceNameOf r = n))).1) := by
  unfold parse_results groupByName
  simp only [List.map_map, List.flatMap_map, Function.comp]

/-- C1 (amended): (i) a request that keeps at least one non-blank URL
survives `ensure_source_requests` under its name; (ii) every
`SourceRequest` handed to `parse_results` is a key of the returned stats
map; (iii) a request with no fetch outcome for its name gets the injected
stat `status="warning"`, `article_count=0`,
`error_message="No fetch attempts"`, `sub_feeds` absent. The claim's
coverage of sources whose URL list is empty or all-blank is corrected:
`ensure_source_requests` drops them before `parse_results` runs, so they
are absent from `source_stats` (see the counterexample). -/
theorem c1_source_stats_amended :
    (∀ (raw : List (String × List String)) (name : String) (urls : List String),
      (name, urls) ∈ raw → (∃ u ∈ urls, (trimString u).isEmpty = false) →
      ∃ req ∈ ensure_source_requests raw, req.name = name) ∧
    (∀ (decode : String → Except String Feed) (now : String)
      (frs : List FetchResult) (sources : List SourceRequest)
      (src : SourceRequest), src ∈ sources →
      (((parse_results decode now frs sources).2).lookup src.name).isSome = true) ∧
    (∀ (decode : String → Except String Feed) (now : String)
      (frs : List FetchResult) (sources : List SourceRequest)
      (src : SourceRequest), src ∈ sources →
      (∀ r ∈ frs, sourceNameOf r ≠ src.name) →
      ((parse_results decode now frs sources).2).lookup src.name
        = some (noFetchStat src.name)) := by
  refine ⟨?_, ?_, ?_⟩
  · rintro raw name urls hmem ⟨u, hu, hne⟩
    refine ⟨⟨name, urls.filter (fun url => !(trimString url).isEmpty)⟩, ?_, rfl⟩
    unfold ensure_source_requests
    rw [List.mem_filter]
    constructor
    · exact List.mem_map_of_mem _ hmem
    · have humem : u ∈ urls.filter (fun url => !(trimString url).isEmpty) :=
        List.mem_filter.mpr ⟨hu, by simp [hne]⟩
      have : urls.filter (fun url => !(trimString url).isEmpty) ≠ [] :=
        List.ne_nil_of_mem humem
      simpa using this
  · intro decode now frs sources src hsrc
    rw [parse_results_stats]
    exact lookup_resurrect_mem hsrc
  · intro decode now frs sources src hsrc hnofetch
    rw [parse_results_stats]
    apply lookup_resurrect_inserts
    · apply lookup_map_pairs_none
      intro hmem
      rcases List.mem_map.mp (mem_firstDedup.mp hmem) with ⟨r, hr, hname⟩
      exact hnofetch r hr hname
    · exact ⟨src, hsrc, rfl⟩

/-- C1 counterexample: a run requesting the single source `"a"` with the
single blank URL `""` produces an empty stats map — `"a"` is not a key
and receives no "No fetch attempts" stat, because `ensure_source_requests`
drops the request before aggregation. -/
theorem c1_counterexample :
    (parse_feeds_parallel (Except.ok ()) (fun _ => Except.error "e") "now"
        (fun _ _ => NetBehaviour.conn "m") [("a", [""])] none 0 0 0).toOption
      = some ⟨[], [], ⟨0, 0, 0, 0⟩⟩ ∧
    (([] : List (String × SourceStats)).lookup "a") = none := by
  constructor
  · decide
  · rfl

/-- C1 witness: the amended guarantee applied at a concrete request list
with one non-blank URL and no fetch outcomes. -/
theorem c1_witness :
    (parse_results (fun _ => Except.error "e") "now" []
      [⟨"a", ["http://x"]⟩]).2.lookup "a" = some (noFetchStat "a") :=
  c1_source_stats_amended.2.2 (fun _ => Except.error "e") "now" []
    [⟨"a", ["http://x"]⟩] ⟨"a", ["http://x"]⟩ (by simp)
    (by intro r hr; simp at hr)

/-! ### C10: sub-feed / article-count consistency -/

theorem subStatOf_article_count (decode : String → Except String Feed)
    (now source_name : String) (r : FetchResult) :
    (subStatOf decode now source_name r).article_count
      = (subArticlesOf decode now source_name r).length := by
  cases r with
  | success raw =>
    rcases hd : decode raw.xml with err | feed <;> simp [subStatOf, subArticlesOf, hd]
  | error err => simp [subStatOf, subArticlesOf]

theorem extract_entry_source {source_name now : String} {e : Entry}
    {a : ParsedArticle} (h : extract_entry source_name now e = some a) :
    a.source = source_name := by
  rcases ht : e.title with _ | t
  · simp [extract_entry, ht] at h
  · rcases hl : e.links with _ | ⟨l, ls⟩
    · simp [extract_entry, ht, hl] at h
    · simp only [extract_entry, ht, hl, List.head?_cons, Option.bind_eq_bind,
        Option.some_bind, Option.pure_def, Option.some.injEq] at h
      rw [← h]

theorem mem_subArticlesOf_source {decode : String → Except String Feed}
    {now source_name : String} {r : FetchResult} {a : ParsedArticle}
    (h : a ∈ subArticlesOf decode now source_name r) : a.source = source_name := by
  cases r with
  | success raw =>
    rcases hd : decode raw.xml with err | feed
    · simp [subArticlesOf, hd] at h
    · simp only [subArticlesOf, hd] at h
      rcases List.mem_filterMap.mp h with ⟨e, -, he⟩
      exact extract_entry_source he
  | error err => simp [subArticlesOf] at h

theorem mem_group_articles_source {decode : String → Except String Feed}
    {now source_name : String} {rs : List FetchResult} {a : ParsedArticle}
    (h : a ∈ (parse_source_group decode now source_name rs).1) :
    a.source = source_name := by
  rw [parse_source_group_spec] at h
  rcases List.mem_flatMap.mp h with ⟨r, -, hra⟩
  exact mem_subArticlesOf_source hra

theorem filter_flatMap_eq {g : String → List ParsedArticle}
    (hg : ∀ n a, a ∈ g n → a.source = n) :
    ∀ (names : List String), names.Nodup → ∀ {name : String}, name ∈ names →
      ((names.flatMap g).filter (fun a => a.source = name)) = g name := by
  intro names
  induction names with
  | nil =>
    intro _ name h
    simp at h
  | cons n ns ih =>
    intro hnodup name hmem
    rw [List.flatMap_cons, List.filter_append]
    rcases List.mem_cons.mp hmem with rfl | hmem'
    · have h1 : (g name).filter (fun a => a.source = name) = g name :=
        List.filter_eq_self.mpr (fun a ha => by simp [hg name a ha])
      have h2 : ((ns.flatMap g).filter (fun a => a.source = name)) = [] := by
        rw [List.filter_eq_nil_iff]
        intro a ha
        rcases List.mem_flatMap.mp ha with ⟨m, hm, ham⟩
        have hsrc := hg m a ham
        simp only [hsrc, decide_eq_true_eq]
        intro heq
        exact (List.nodup_cons.mp hnodup).1 (heq ▸ hm)
      rw [h1, h2, List.append_nil]
    · have hn : n ≠ name := fun h => (List.nodup_cons.mp hnodup).1 (h ▸ hmem')
      have h1 : (g n).filter (fun a => a.source = name) = [] := by
        rw [List.filter_eq_nil_iff]
        intro a ha
        have hsrc := hg n a ha
        simp only [hsrc, decide_eq_true_eq]
        exact hn
      rw [h1, List.nil_append]
      exact ih (List.nodup_cons.mp hnodup).2 hmem'

/-- C10: every source stat produced from at least one fetch outcome has
`sub_feeds` present with exactly one entry per outcome of that source,
and its `article_count` equals both the sum of its sub-feeds' counts and
the number of articles attributed to that source in the run's article
list. -/
theorem c10_subfeed_consistency (decode : String → Except String Feed)
    (now : String) (frs : List FetchResult) (sources : List SourceRequest)
    (name : String) (h : ∃ r ∈ frs, sourceNameOf r = name) :
    ∃ stat subs,
      ((parse_results decode now frs sources).2).lookup name = some stat ∧
      stat.sub_feeds = some subs ∧
      subs.length = (frs.filter (fun r => sourceNameOf r = name)).length ∧
      stat.article_count = (subs.map (fun sub => sub.article_count)).sum ∧
      stat.article_count = ((parse_results decode now frs sources).1.filter
        (fun a => a.source = name)).length := by
  obtain ⟨r0, hr0, hname0⟩ := h
  have hrs_ne : frs.filter (fun r => sourceNameOf r = name) ≠ [] :=
    List.ne_nil_of_mem (List.mem_filter.mpr ⟨hr0, by simp [hname0]⟩)
  have hmemname : name ∈ firstDedup (frs.map sourceNameOf) :=
    mem_firstDedup.mpr (List.mem_map.mpr ⟨r0, hr0, hname0⟩)
  refine ⟨(parse_source_group decode now name
      (frs.filter (fun r => sourceNameOf r = name))).2,
    (frs.filter (fun r => sourceNameOf r = name)).map
      (subStatOf decode now name), ?_, ?_, ?_, ?_, ?_⟩
  · rw [parse_results_stats]
    exact lookup_resurrect_preserved (lookup_map_pairs_some hmemname)
  · rw [parse_source_group_spec]
    have : ((frs.filter (fun r => sourceNameOf r = name)).map
        (subStatOf decode now name)).isEmpty = false := by
      rcases hf : frs.filter (fun r => sourceNameOf r = name) with _ | ⟨x, xs⟩
      · exact absurd hf hrs_ne
      · rfl
    simp [this]
  · rw [List.length_map]
  · simp only [parse_source_group_spec]
    rw [List.length_flatMap, List.map_map]
    congr 1
    apply List.map_congr_left
    intro r _
    exact (subStatOf_article_count decode now name r).symm
  · rw [parse_results_articles]
    have hbody : ∀ n a, a ∈ (parse_source_group decode now n
        (frs.filter (fun r => sourceNameOf r = n))).1 → a.source = n :=
      fun n a ha => mem_group_articles_source ha
    rw [filter_flatMap_eq hbody _ (nodup_firstDedup _) hmemname]
    rfl

/-- C10 witness: the consistency statement applied at a run with one
failed outcome for source `"s"`. -/
theorem c10_witness :
    ∃ stat subs,
      ((parse_results (fun _ => Except.error "e") "now"
        [FetchResult.error ⟨"s", "u", "m"⟩] []).2).lookup "s" = some stat ∧
      stat.sub_feeds = some subs ∧
      subs.length = ([FetchResult.error ⟨"s", "u", "m"⟩].filter
        (fun r => sourceNameOf r = "s")).length ∧
      stat.article_count = (subs.map (fun sub => sub.article_count)).sum ∧
      stat.article_count = ((parse_results (fun _ => Except.error "e") "now"
        [FetchResult.error ⟨"s", "u", "m"⟩] []).1.filter
          (fun a => a.source = "s")).length :=
  c10_subfeed_consistency (fun _ => Except.error "e") "now"
    [FetchResult.error ⟨"s", "u", "m"⟩] [] "s"
    ⟨FetchResult.error ⟨"s", "u", "m"⟩, by simp, rfl⟩

/-- C8: transport errors, non-2xx status errors, body-read errors and
feed-decode errors are data: each becomes a `FetchResult.Error` or an
error sub-feed stat carrying its message, every outcome still yields its
own sub-feed stat (no sibling aborts), and a run returns `Ok` regardless
of them; the only hard failure of `parse_feeds_parallel` is runtime
creation at start. -/
theorem c8_errors_are_data :
    (∀ (decode : String → Except String Feed) (now : String)
       (net : String → String → NetBehaviour)
       (sources : List (String × List String)) (mc : Option Nat)
       (t f p : Nat) (e : String),
      parse_feeds_parallel (Except.error e) decode now net sources mc t f p
        = Except.error ("Failed to start Tokio runtime: " ++ e)) ∧
    (∀ (decode : String → Except String Feed) (now : String)
       (net : String → String → NetBehaviour)
       (sources : List (String × List String)) (mc : Option Nat) (t f p : Nat),
      ∃ res, parse_feeds_parallel (Except.ok ()) decode now net sources mc t f p
        = Except.ok res) ∧
    (∀ s u msg : String, fetch_one (NetBehaviour.conn msg) s u
      = FetchResult.error ⟨s, u, msg⟩) ∧
    (∀ (s u : String) (r : NetResponse), r.okStatus = false →
      fetch_one (NetBehaviour.resp r) s u = FetchResult.error ⟨s, u, r.statusMessage⟩) ∧
    (∀ (s u msg : String) (r : NetResponse), r.okStatus = true →
      r.bodyResult = Except.error msg →
      fetch_one (NetBehaviour.resp r) s u
        = FetchResult.error ⟨s, u, "Failed to read body: " ++ msg⟩) ∧
    (∀ (decode : String → Except String Feed) (now n : String)
       (rs : List FetchResult),
      ((parse_source_group decode now n rs).2.sub_feeds.getD []).length = rs.length) ∧
    (∀ (decode : String → Except String Feed) (now n : String)
       (rs : List FetchResult) (r : FetchResult) (msg : String),
      r ∈ rs → errMsgOf decode r = some msg →
      ∃ sub ∈ ((parse_source_group decode now n rs).2.sub_feeds.getD []),
        sub.status = "error" ∧ sub.error_message = some msg) := by
  refine ⟨?_, ?_, ?_, ?_, ?_, ?_, ?_⟩
  · intro decode now net sources mc t f p e
    rfl
  · intro decode now net sources mc t f p
    exact ⟨_, rfl⟩
  · intro s u msg
    rfl
  · intro s u r h
    simp [fetch_one, h]
  · intro s u msg r h1 h2
    simp [fetch_one, h1, h2]
  · intro decode now n rs
    rw [parse_source_group_spec]
    simp only [optList_getD]
    exact List.length_map _ _
  · intro decode now n rs r msg hmem herr
    rw [parse_source_group_spec]
    simp only [optList_getD]
    refine ⟨subStatOf decode now n r, List.mem_map_of_mem _ hmem, ?_, ?_⟩
    · exact (subStatOf_status_error decode now n r).mpr (by simp [herr])
    · rw [subStatOf_error_message, herr]

/-- C8 witness: a fetch failure for source `"s"` is recorded as an error
sub-feed stat carrying its message. -/
theorem c8_witness :
    ∃ sub ∈ (((parse_source_group (fun _ => Except.error "e") "now" "s"
        [FetchResult.error ⟨"s", "u", "boom"⟩]).2.sub_feeds).getD []),
      sub.status = "error" ∧ sub.error_message = some "boom" :=
  c8_errors_are_data.2.2.2.2.2.2 (fun _ => Except.error "e") "now" "s"
    [FetchResult.error ⟨"s", "u", "boom"⟩] (FetchResult.error ⟨"s", "u", "boom"⟩)
    "boom" (by simp) rfl

/-! ### C9: the fetch-phase concurrency bound (`fetcher.rs`)

`fetch_all` creates `Semaphore::new(max_concurrent.max(1))`; every task
acquires one permit before its HTTP request and holds it until the
response is obtained. The permit discipline is embedded as a transition
system: `available` is the semaphore's permit count, `active` the number
of tasks currently holding a permit (in-flight requests). `acquire`
(enabled only when a permit is available) models a successful
`acquire_owned`; `release` models dropping the permit when the task
finishes. The `acquire_permit` loop never fails: the semaphore is never
closed, so the model has no failure transition — waiting is the only
alternative to acquiring. -/

structure SemState where
  available : Nat
  active : Nat
deriving Repr, DecidableEq

/-- `Semaphore::new(max_concurrent.max(1))`, no request yet in flight. -/
def semInit (max_concurrent : Nat) : SemState :=
  ⟨Nat.max max_concurrent 1, 0⟩

inductive SemStep : SemState → SemState → Prop
  | acquire (s : SemState) (h : 0 < s.available) :
      SemStep s ⟨s.available - 1, s.active + 1⟩
  | release (s : SemState) (h : 0 < s.active) :
      SemStep s ⟨s.available + 1, s.active - 1⟩

inductive SemReachable (max_concurrent : Nat) : SemState → Prop
  | init : SemReachable max_concurrent (semInit max_concurrent)
  | step {s t : SemState} : SemReachable max_concurrent s → SemStep s t →
      SemReachable max_concurrent t

theorem sem_invariant {max_concurrent : Nat} {s : SemState}
    (h : SemReachable max_concurrent s) :
    s.available + s.active = Nat.max max_concurrent 1 := by
  induction h with
  | init => simp [semInit]
  | step hr hstep ih =>
    cases hstep with
    | acquire h => simp only at ih ⊢; omega
    | release h => simp only at ih ⊢; omega

/-- C9: in every reachable state of the fetch phase, at most
`max(max_concurrency, 1)` tasks hold an active network request; with
`max_concurrency = 1` no two requests are ever in flight simultaneously;
from every reachable state a transition is enabled (acquisition waits, it
never fails); and the entry point's default budget is 32. -/
theorem c9_concurrency_bound :
    (∀ (max_concurrent : Nat) (s : SemState),
      SemReachable max_concurrent s → s.active ≤ Nat.max max_concurrent 1) ∧
    (∀ s : SemState, SemReachable 1 s → s.active ≤ 1) ∧
    (∀ (max_concurrent : Nat) (s : SemState), SemReachable max_concurrent s →
      0 < s.available ∨ 0 < s.active) ∧
    Nat.max ((none : Option Nat).getD 32) 1 = 32 := by
  refine ⟨?_, ?_, ?_, by decide⟩
  · intro mc s h
    have := sem_invariant h
    omega
  · intro s h
    have := sem_invariant h
    simp at this
    omega
  · intro mc s h
    have := sem_invariant h
    have h1 : 1 ≤ Nat.max mc 1 := Nat.le_max_right mc 1
    omega

/-- C9 witness: with `max_concurrency = 1`, the state reached by one
acquisition has one request in flight, within the bound. -/
theorem c9_witness :
    SemReachable 1 ⟨0, 1⟩ ∧ (⟨0, 1⟩ : SemState).active ≤ 1 := by
  have hreach : SemReachable 1 ⟨0, 1⟩ :=
    SemReachable.step SemReachable.init (SemStep.acquire (semInit 1) (by decide))
  exact ⟨hreach, c9_concurrency_bound.2.1 _ hreach⟩

/-! ### OG-image extraction (`html_extract.rs`)

`scraper::Html::parse_document` and CSS selection are external; the
document is modelled as its elements in document order, each with a tag
name and attributes, which is exactly what the three selectors
`meta[property='og:image']`, `meta[name='twitter:image']` and
`link[rel='image_src']` observe. -/

structure Element where
  tag : String
  attrs : List (String × String)
deriving Repr, DecidableEq

/-- Attribute access (`el.value().attr(name)`). -/
def attrOf (el : Element) (name : String) : Option String :=
  el.attrs.lookup name

/-- `meta_contents` from `html_extract.rs` for a selector
`meta[attrName='attrVal']`: the `content` attributes, in document order,
of matching elements, keeping only values whose trim is non-empty (the
raw, untrimmed value is kept). -/
def meta_contents (doc : List Element) (attrName attrVal : String) : List String :=
  (doc.filterMap (fun el =>
    if el.tag = "meta" ∧ attrOf el attrName = some attrVal
    then attrOf el "content" else none)).filter
      (fun v => !(trimString v).isEmpty)

/-- The `link[rel='image_src']` pass of `extract_og_image_from_html`:
hrefs of matching links, trimmed, skipping blanks. -/
def link_image_src (doc : List Element) : List String :=
  doc.filterMap (fun el =>
    if el.tag = "link" ∧ attrOf el "rel" = some "image_src" then
      match attrOf el "href" with
      | some href => if (trimString href).isEmpty then none else some (trimString href)
      | none => none
    else none)

structure ImageCandidate where
  url : String
  source : String
  priority : Nat
deriving Repr, DecidableEq

structure OgImageExtraction where
  image_url : Option String
  candidates : List ImageCandidate
deriving Repr, DecidableEq

/-- `extract_og_image_from_html` from `html_extract.rs`. -/
def extract_og_image_from_html (doc : List Element) : OgImageExtraction :=
  let og := (meta_contents doc "property" "og:image").map
    (fun url => ImageCandidate.mk url "og:image" 1)
  let tw := (meta_contents doc "name" "twitter:image").map
    (fun url => ImageCandidate.mk url "twitter:image" 2)
  let li := (link_image_src doc).map
    (fun url => ImageCandidate.mk url "link:image_src" 3)
  let candidates := og ++ tw ++ li
  { image_url := candidates.head?.map (fun c => c.url), candidates := candidates }

/-- C6: candidates are emitted in (priority, document order) — all
`og:image` values at priority 1, then all `twitter:image` values at
priority 2, then all `image_src` link values at priority 3, each tagged
with its source — priorities are nondecreasing along the list, and the
reported `image_url` is the first candidate overall; on the document
`og:image "A"`, `twitter:image "B"` the result is `image_url = "A"` with
candidates `[(A, og:image, 1), (B, twitter:image, 2)]`. -/
theorem c6_og_image_priority (doc : List Element) :
    (extract_og_image_from_html doc).candidates
      = (meta_contents doc "property" "og:image").map
          (fun url => ImageCandidate.mk url "og:image" 1)
        ++ (meta_contents doc "name" "twitter:image").map
          (fun url => ImageCandidate.mk url "twitter:image" 2)
        ++ (link_image_src doc).map
          (fun url => ImageCandidate.mk url "link:image_src" 3) ∧
    List.Pairwise (fun a b => a.priority ≤ b.priority)
      (extract_og_image_from_html doc).candidates ∧
    (∀ c ∈ (extract_og_image_from_html doc).candidates,
      (c.priority = 1 ∧ c.source = "og:image" ∧
        c.url ∈ meta_contents doc "property" "og:image") ∨
      (c.priority = 2 ∧ c.source = "twitter:image" ∧
        c.url ∈ meta_contents doc "name" "twitter:image") ∨
      (c.priority = 3 ∧ c.source = "link:image_src" ∧
        c.url ∈ link_image_src doc)) ∧
    (extract_og_image_from_html doc).image_url
      = (extract_og_image_from_html doc).candidates.head?.map (fun c => c.url) ∧
    extract_og_image_from_html
      [⟨"meta", [("property", "og:image"), ("content", "A")]⟩,
       ⟨"meta", [("name", "twitter:image"), ("content", "B")]⟩]
      = ⟨some "A", [⟨"A", "og:image", 1⟩, ⟨"B", "twitter:image", 2⟩]⟩ := by
  refine ⟨rfl, ?_, ?_, rfl, by decide⟩
  case refine_2 =>
    intro c hc
    show _ ∨ _ ∨ _
    have hc' : c ∈ (meta_contents doc "property" "og:image").map
          (fun url => ImageCandidate.mk url "og:image" 1)
        ++ (meta_contents doc "name" "twitter:image").map
          (fun url => ImageCandidate.mk url "twitter:image" 2)
        ++ (link_image_src doc).map
          (fun url => ImageCandidate.mk url "link:image_src" 3) := hc
    rcases List.mem_append.mp hc' with h1 | h1
    · rcases List.mem_append.mp h1 with h2 | h2
      · rcases List.mem_map.mp h2 with ⟨w, hw, rfl⟩
        exact Or.inl ⟨rfl, rfl, hw⟩
      · rcases List.mem_map.mp h2 with ⟨w, hw, rfl⟩
        exact Or.inr (Or.inl ⟨rfl, rfl, hw⟩)
    · rcases List.mem_map.mp h1 with ⟨w, hw, rfl⟩
      exact Or.inr (Or.inr ⟨rfl, rfl, hw⟩)
  case refine_1 =>
  have hconst : ∀ (p : Nat) (su : String) (us : List String)
      (rest : List ImageCandidate),
      (∀ c ∈ rest, p ≤ c.priority) →
      List.Pairwise (fun (a b : ImageCandidate) => a.priority ≤ b.priority) rest →
      List.Pairwise (fun (a b : ImageCandidate) => a.priority ≤ b.priority)
        (us.map (fun url => ImageCandidate.mk url su p) ++ rest) := by
    intro p su us rest hrest hp
    induction us with
    | nil => simpa
    | cons u us ih =>
      rw [List.map_cons, List.cons_append]
      refine List.pairwise_cons.mpr ⟨?_, ih⟩
      intro c hc
      rcases List.mem_append.mp hc with hc | hc
      · rcases List.mem_map.mp hc with ⟨w, -, rfl⟩
        exact Nat.le_refl _
      · exact hrest c hc
  show List.Pairwise _
    ((meta_contents doc "property" "og:image").map
        (fun url => ImageCandidate.mk url "og:image" 1)
      ++ (meta_contents doc "name" "twitter:image").map
        (fun url => ImageCandidate.mk url "twitter:image" 2)
      ++ (link_image_src doc).map
        (fun url => ImageCandidate.mk url "link:image_src" 3))
  rw [List.append_assoc]
  apply hconst
  · intro c hc
    rcases List.mem_append.mp hc with hc | hc
    · rcases List.mem_map.mp hc with ⟨w, -, rfl⟩
      exact Nat.le_of_lt Nat.one_lt_two
    · rcases List.mem_map.mp hc with ⟨w, -, rfl⟩
      exact Nat.le_of_lt (Nat.lt_of_lt_of_le Nat.one_lt_two (Nat.le_succ 2))
  · apply hconst
    · intro c hc
      rcases List.mem_map.mp hc with ⟨w, -, rfl⟩
      exact Nat.le_succ 2
    · have h0 := hconst 3 "link:image_src" (link_image_src doc) []
        (by simp) List.Pairwise.nil
      simpa using h0

/-- C2 witness: the status rule applied at a source group with one fetch
failure. -/
theorem c2_witness :
    ((parse_source_group (fun _ => Except.error "e") "now" "s"
        [FetchResult.error ⟨"s", "u", "boom"⟩]).2.status = "warning" ↔
      ∃ sub ∈ ((parse_source_group (fun _ => Except.error "e") "now" "s"
        [FetchResult.error ⟨"s", "u", "boom"⟩]).2.sub_feeds.getD []),
        sub.status = "error") :=
  (c2_source_status_aggregation (fun _ => Except.error "e") "now" "s"
    [FetchResult.error ⟨"s", "u", "boom"⟩]).2.1

/-- C7 witness: the metrics invariant at a concrete run. -/
theorem c7_witness :
    (parse_sources (fun _ => Except.error "e") "now"
        (fun _ _ => NetBehaviour.conn "m") [⟨"a", ["http://x"]⟩] 1 0 0 0).metrics.articles_parsed
      = (parse_sources (fun _ => Except.error "e") "now"
        (fun _ _ => NetBehaviour.conn "m") [⟨"a", ["http://x"]⟩] 1 0 0 0).articles.length :=
  c7_articles_parsed_eq_length (fun _ => Except.error "e") "now"
    (fun _ _ => NetBehaviour.conn "m") [⟨"a", ["http://x"]⟩] 1 0 0 0

/-- C6 witness: the extractor on the two-meta example document. -/
theorem c6_witness :
    extract_og_image_from_html
      [⟨"meta", [("property", "og:image"), ("content", "A")]⟩,
       ⟨"meta", [("name", "twitter:image"), ("content", "B")]⟩]
      = ⟨some "A", [⟨"A", "og:image", 1⟩, ⟨"B", "twitter:image", 2⟩]⟩ :=
  (c6_og_image_priority []).2.2.2.2

end RssParser
